import Mathlib

/-!
Shallow embedding of the object-graph duplication engine of the `prtcl`
repository (packages/copy and packages/prtcl), together with proofs of the
specified properties.

Modelling conventions:
* A JS value is a `Val`: a primitive, a function, or a reference into a heap.
  `typeof null` is `'object'` in JS, so the embedded `isObject` is true for
  `null` exactly as `isObject` in the source (`return typeof value === 'object'`).
* The heap is a single `List Node` (JS has one heap); allocation appends.
  Object identity is the heap address, so `===` is equality of `Val.ref`.
* A `Node` carries its structural data, its frozen bit (`Object.isFrozen` /
  `Object.freeze`), an optional `Prtcl.toClone` custom handler, and an
  optional `toJSON` method.  A custom handler is modelled extensionally as
  either a value it returns or an exception it throws.
* The modelled node kinds are plain objects, arrays, Maps and Sets.  The
  `internalClone` branches for structured-clone types, primitive wrappers,
  native errors, `Error`, `Date` and `RegExp` test `instanceof` / constructor
  identity, which none of the modelled kinds satisfies, so on the modelled
  universe those branches return false and are not represented separately.
* Object fields may be getters; `Reflect.get` and object spread evaluate a
  getter to its value, so enumeration yields `Field.val` either way.
-/

namespace PrtclSpec

/-- JS primitive values (no floats are needed by the claims, so numbers are `Int`). -/
inductive Prim
  | null
  | undef
  | num (n : Int)
  | str (s : String)
  | bool (b : Bool)
  | sym (id : Nat)
  | bigint (n : Int)
deriving DecidableEq, Repr

/-- A JS value: primitive, function (`typeof v === 'function'`), or a
reference to a heap node (`typeof v === 'object'`, non-null). -/
inductive Val
  | prim (p : Prim)
  | func (id : Nat)
  | ref (a : Nat)
deriving DecidableEq, Repr

/-- Extensional behaviour of a user-supplied method (custom clone handler or
`toJSON`): it either returns a value or throws. -/
inductive CustomBehavior
  | ret (v : Val)
  | thrw (msg : String)
deriving DecidableEq, Repr

/-- An own property of a plain object.  `getter = true` models an accessor
property; `Reflect.get` and spread evaluate it to `val`. -/
structure Field where
  key : String
  getter : Bool
  val : Val
deriving DecidableEq, Repr

/-- Structural data of a composite.  Array cells are `Option` because JS
arrays can have holes (the clone engines create them by assigning indices
out of order). -/
inductive NodeData
  | obj (fields : List Field)
  | arr (cells : List (Option Val))
  | mapN (entries : List (Val × Val))
  | setN (elems : List Val)
deriving DecidableEq, Repr

/-- A heap node: structural data, frozen bit, optional `Prtcl.toClone`
custom handler, optional `toJSON` method. -/
structure Node where
  data : NodeData
  frozen : Bool := false
  custom : Option CustomBehavior := none
  toJSONm : Option CustomBehavior := none
deriving DecidableEq, Repr

abbrev Heap := List Node

/-- `isObject` from utils/commons: `typeof value === 'object'`.
True for references AND for `null` (a JS quirk the copy package inherits). -/
def isObject : Val → Bool
  | .ref _ => true
  | .prim .null => true
  | _ => false

/-- `Object.isFrozen(parent)` for a heap address. -/
def isFrozenAt (H : Heap) (a : Nat) : Bool :=
  match H[a]? with
  | some nd => nd.frozen
  | none => false

/-- The `TypeError` raised when `internalClone` reaches `isNativeError(null)`,
which evaluates `null.constructor`. -/
def nullTypeError : String :=
  "TypeError: Cannot read properties of null (reading constructor)"

/-- Keys used by stack items: an array index, an object property name, or an
arbitrary value (Map keys, Set elements). -/
inductive IKey
  | idx (n : Nat)
  | prop (s : String)
  | vkey (v : Val)
deriving DecidableEq, Repr

/-- Position marker of a work item among its parent's children
(`getItemType` in create-stack-items, `getItemState` in prtcl/utils). -/
inductive IType
  | head
  | body
  | tail
deriving DecidableEq, Repr

/-- `getItemType(index, length)`: `head` at index 0, `tail` at the final
index, `body` in between (index 0 wins for a single child). -/
def getItemType (i len : Nat) : IType :=
  if i = 0 then .head else if i = len - 1 then .tail else .body

/-- A pending work item `(value, key, position, source parent address)`.
The prtcl package calls the position field `state`; the copy package calls
it `type`. -/
structure Item where
  value : Val
  key : IKey
  type : IType
  parent : Nat
deriving DecidableEq, Repr

/-- `getItems(parent)` of the copy package: enumerate the children of an
input composite, in order, with position markers.  For plain objects this is
`getAllKeys` (own property names; the prototype chain of the modelled plain
objects contributes nothing) read through `Reflect.get`, which evaluates
getters. -/
def getItems (H : Heap) (a : Nat) : List Item :=
  match H[a]? with
  | none => []
  | some nd =>
    match nd.data with
    | .obj fs => fs.mapIdx fun i f =>
        ⟨f.val, .prop f.key, getItemType i fs.length, a⟩
    | .arr cs => cs.mapIdx fun i c =>
        ⟨c.getD (.prim .undef), .idx i, getItemType i cs.length, a⟩
    | .mapN es => es.mapIdx fun i e =>
        ⟨e.2, .vkey e.1, getItemType i es.length, a⟩
    | .setN xs => xs.mapIdx fun i x =>
        ⟨x, .vkey x, getItemType i xs.length, a⟩

/-- `createObjectClone(parent)`: an empty shell of the same structural kind
(`[]`, `new Map()`, `new Set()`, or `{}`). -/
def createObjectClone : NodeData → Node
  | .obj _ => ⟨.obj [], false, none, none⟩
  | .arr _ => ⟨.arr [], false, none, none⟩
  | .mapN _ => ⟨.mapN [], false, none, none⟩
  | .setN _ => ⟨.setN [], false, none, none⟩

/-- JS property assignment on a plain-object output (add or update; outputs
never have accessor properties). -/
def assignField : List Field → String → Val → List Field
  | [], k, v => [⟨k, false, v⟩]
  | f :: fs, k, v => if f.key = k then ⟨k, false, v⟩ :: fs else f :: assignField fs k v

/-- JS `a[i] = v` on an array: set in place, extending with holes if needed. -/
def setCell (cs : List (Option Val)) (i : Nat) (v : Val) : List (Option Val) :=
  if i < cs.length then cs.set i (some v)
  else cs ++ List.replicate (i - cs.length) none ++ [some v]

/-- JS `Map.prototype.set`: update an existing key (identity / SameValueZero
equality) or append. -/
def mapSet (es : List (Val × Val)) (k v : Val) : List (Val × Val) :=
  if es.any (·.1 = k) then es.map fun e => if e.1 = k then (k, v) else e
  else es ++ [(k, v)]

/-- JS `Set.prototype.add`: append unless already present. -/
def setAdd (xs : List Val) (v : Val) : List Val :=
  if xs.contains v then xs else xs ++ [v]

/-- `setItem(parent, key, value)`: dispatch on the output's kind.  The
engine only ever pairs array outputs with index keys, Map outputs with value
keys and object outputs with property keys, so the remaining combinations
leave the node unchanged. -/
def setItemData (nd : NodeData) (k : IKey) (v : Val) : NodeData :=
  match nd, k with
  | .arr cs, .idx i => .arr (setCell cs i v)
  | .mapN es, .vkey kv => .mapN (mapSet es kv v)
  | .setN xs, _ => .setN (setAdd xs v)
  | .obj fs, .prop s => .obj (assignField fs s v)
  | nd, _ => nd

/-- Write through a parent-output value.  The engine stores only fresh
composites in the visited map for parents it traverses, so the target is a
reference; other values are left untouched. -/
def setItemV (H : Heap) (target : Val) (k : IKey) (v : Val) : Heap :=
  match target with
  | .ref p =>
    match H[p]? with
    | some nd => H.set p { nd with data := setItemData nd.data k v }
    | none => H
  | _ => H

/-- `Object.freeze` through a value. -/
def freezeV (H : Heap) (target : Val) : Heap :=
  match target with
  | .ref p =>
    match H[p]? with
    | some nd => H.set p { nd with frozen := true }
    | none => H
  | _ => H

/-- Clone hints (`'deep' | 'default' | 'shallow'`). -/
inductive CloneHint
  | deep
  | dflt
  | shallow
deriving DecidableEq, Repr

/-- Capability/traversal events, used to state when the engine consults the
registry (`Prtcl.impl`, `queried`), invokes a custom handler (`invoked`), or
falls back to the default shell strategy (`defaulted`). -/
inductive Ev
  | queried (a : Nat)
  | invoked (a : Nat)
  | defaulted (a : Nat)
deriving DecidableEq, Repr

/-- Result of `internalClone`. -/
inductive ICResult
  | cloned (v : Val)
  | notCloned
  | thrown (msg : String)
deriving DecidableEq, Repr

/-- `internalClone(value, hint)` on an object reference: first consult the
capability registry (`Prtcl.impl('clone', value)`); a declared handler is
invoked once and its result (or exception) is taken verbatim.  The remaining
branches (structured clone, primitive wrappers, native errors, `Error`,
`Date`, `RegExp`) are false for every modelled node kind. -/
def internalClone (H : Heap) (a : Nat) (_hint : CloneHint) : List Ev × ICResult :=
  match H[a]? with
  | none => ([.queried a], .notCloned)
  | some nd =>
    match nd.custom with
    | some (.ret v) => ([.queried a, .invoked a], .cloned v)
    | some (.thrw m) => ([.queried a, .invoked a], .thrown m)
    | none => ([.queried a], .notCloned)

/-- State of one deep traversal: the (growing) heap, the visited map
(insertion-ordered, as a `WeakMap` from source address to created output),
the work stack (head = top, i.e. the next `pop()`), the event trace and a
pending exception. -/
structure DState where
  heap : Heap
  visited : List (Nat × Val)
  stack : List Item
  trace : List Ev
  err : Option String
deriving Repr

/-- `visited.get(a)` (first binding wins; the engine never rebinds a key). -/
def lookupV (vs : List (Nat × Val)) (a : Nat) : Option Val :=
  (vs.find? fun e => e.1 = a).map (·.2)

/-- The loop is finished when the stack is empty or an exception is pending. -/
def doneD (s : DState) : Bool :=
  s.err.isSome || s.stack.isEmpty

/-- Tail of one loop iteration: `setItem(parentOutput, key, output)` followed
by `if (type === 'head' && Object.isFrozen(parent)) Object.freeze(parentOutput)`. -/
def finishItem (s : DState) (newStack : List Item) (pOut : Val) (it : Item) (w : Val) :
    DState :=
  let h1 := setItemV s.heap pOut it.key w
  let h2 :=
    if it.type = IType.head then
      if isFrozenAt h1 it.parent then freezeV h1 pOut else h1
    else h1
  { s with heap := h2, stack := newStack }

/-- One iteration of the `clone.deep` while-loop (part_009 lines 50-70). -/
def dstep (s : DState) : DState :=
  if doneD s then s else
  match s.stack with
  | [] => s
  | it :: rest =>
    match lookupV s.visited it.parent with
    | none => { s with err := some "ParentOut not defined" }
    | some pOut =>
      match it.value with
      | .ref a =>
        match lookupV s.visited a with
        | some w => finishItem s rest pOut it w
        | none =>
          match internalClone s.heap a .deep with
          | (evs, .thrown m) => { s with trace := s.trace ++ evs, err := some m }
          | (evs, .cloned w) =>
            finishItem
              { s with trace := s.trace ++ evs, visited := s.visited ++ [(a, w)] }
              rest pOut it w
          | (evs, .notCloned) =>
            match s.heap[a]? with
            | none => { s with trace := s.trace ++ evs, err := some "dangling reference" }
            | some nd =>
              let o := s.heap.length
              finishItem
                { s with
                  heap := s.heap ++ [createObjectClone nd.data],
                  trace := s.trace ++ evs ++ [.defaulted a],
                  visited := s.visited ++ [(a, .ref o)] }
                ((getItems s.heap a).reverse ++ rest) pOut it (.ref o)
      | .prim .null =>
        -- isObject(null) is true and WeakMap.has(null) is false, so the loop
        -- calls internalClone(null, 'deep'), which throws inside isNativeError.
        { s with err := some nullTypeError }
      | v => finishItem s rest pOut it v

/-- Run a loop body for at most `fuel` iterations. -/
def drainWith (f : DState → DState) : Nat → DState → DState
  | 0, s => s
  | n + 1, s => if doneD s then s else drainWith f n (f s)

/-- Initial loop state of `clone.deep` once the root has been classified as
needing the default strategy: shell allocated, root registered in the
visited map, the root's children pushed. -/
def initDeep (H : Heap) (a : Nat) (nd : Node) (evs : List Ev) : DState :=
  { heap := H ++ [createObjectClone nd.data]
    visited := [(a, .ref H.length)]
    stack := (getItems H a).reverse
    trace := evs ++ [.defaulted a]
    err := none }

/-- The drained loop state of `clone.deep` for a root address whose
`internalClone` declined (`some` exactly when the loop is entered). -/
def cloneDeepState (fuel : Nat) (H : Heap) (a : Nat) : Option DState :=
  match internalClone H a .deep with
  | (evs, .notCloned) =>
    match H[a]? with
    | none => none
    | some nd => some (drainWith dstep fuel (initDeep H a nd evs))
  | _ => none

/-- `clone.deep(value)`.  `none` means the given fuel did not drain the
stack; `some (.error e)` is a thrown exception; `some (.ok (H, v))` is a
normal return together with the final heap. -/
def cloneDeep (fuel : Nat) (H : Heap) (v : Val) : Option (Except String (Heap × Val)) :=
  match v with
  | .ref a =>
    match internalClone H a .deep with
    | (_, .thrown m) => some (.error m)
    | (_, .cloned w) => some (.ok (H, w))
    | (_, .notCloned) =>
      match cloneDeepState fuel H a with
      | none => some (.error "dangling reference")
      | some s =>
        match s.err with
        | some m => some (.error m)
        | none => if s.stack.isEmpty then some (.ok (s.heap, .ref H.length)) else none
  | .prim .null => some (.error nullTypeError)
  | v => some (.ok (H, v))

/-- `{...value}`: object spread copies own enumerable properties, evaluating
getters into data properties; own symbol-keyed methods (the declared
handlers) are copied too. -/
def spreadFields (fs : List Field) : List Field :=
  fs.map fun f => ⟨f.key, false, f.val⟩

/-- The node allocated by the one-level copy of `clone` / `clone.shallow`:
`[...v]` keeps the frozen bit re-applied by `cloneArray`, `new Map(v)` /
`new Set(v)` are never frozen, and `{...v}` copies own enumerable properties
(getters evaluated) with the frozen bit re-applied by `cloneObject`. -/
def copyNode (nd : Node) : Node :=
  match nd.data with
  | .arr cs => ⟨.arr cs, nd.frozen, none, none⟩
  | .mapN es => ⟨.mapN es, false, none, none⟩
  | .setN xs => ⟨.setN xs, false, none, none⟩
  | .obj fs => ⟨.obj (spreadFields fs), nd.frozen, nd.custom, nd.toJSONm⟩

/-- `clone(value)` / `clone.shallow(value)` (identical bodies up to the hint
passed to `internalClone`): primitives other than `null` are returned
verbatim; `null` reaches `internalClone` and throws; otherwise a one-level
copy (`[...v]`, `new Map(v)`, `new Set(v)`, `{...v}`), re-freezing array and
object outputs when the source is frozen. -/
def cloneOnce (hint : CloneHint) (H : Heap) (v : Val) : Except String (Heap × Val) :=
  match v with
  | .ref a =>
    match internalClone H a hint with
    | (_, .thrown m) => .error m
    | (_, .cloned w) => .ok (H, w)
    | (_, .notCloned) =>
      match H[a]? with
      | none => .error "dangling reference"
      | some nd => .ok (H ++ [copyNode nd], .ref H.length)
  | .prim .null => .error nullTypeError
  | v => .ok (H, v)

/-- `clone(value)` (hint `'default'`). -/
def clone (H : Heap) (v : Val) : Except String (Heap × Val) :=
  cloneOnce .dflt H v

/-- `clone.shallow(value)`. -/
def cloneShallow (H : Heap) (v : Val) : Except String (Heap × Val) :=
  cloneOnce .shallow H v

/-!
The prtcl package's own copy engine (`defaultMutableClone` /
`defaultReadonlyClone`, deep mode).  Its enumeration `getCopyItemsStack`
indexes arrays and otherwise takes own property names (Map/Set entries are
internal slots, not properties, so they contribute nothing), and its shells
`createCopyOutPut` are `[]` for arrays and `{}` for everything else.
-/

/-- `getCopyItemsStack(parent)` of prtcl/utils. -/
def getCopyItemsStack (H : Heap) (a : Nat) : List Item :=
  match H[a]? with
  | none => []
  | some nd =>
    match nd.data with
    | .arr cs => cs.mapIdx fun i c =>
        ⟨c.getD (.prim .undef), .idx i, getItemType i cs.length, a⟩
    | .obj fs => fs.mapIdx fun i f =>
        ⟨f.val, .prop f.key, getItemType i fs.length, a⟩
    | .mapN _ => []
    | .setN _ => []

/-- `createCopyOutPut(value)`: `[]` for arrays, `{}` otherwise. -/
def createCopyOutPut : NodeData → Node
  | .arr _ => ⟨.arr [], false, none, none⟩
  | _ => ⟨.obj [], false, none, none⟩

/-- Assignment tail of the prtcl copy loops; `defaultReadonlyClone`
(`ro = true`) additionally freezes the parent output at every `head` item,
unconditionally; `defaultMutableClone` (`ro = false`) never freezes. -/
def finishCopyItem (ro : Bool) (s : DState) (newStack : List Item) (pOut : Val)
    (it : Item) (w : Val) : DState :=
  let h1 := setItemV s.heap pOut it.key w
  let h2 := if ro ∧ it.type = IType.head then freezeV h1 pOut else h1
  { s with heap := h2, stack := newStack }

/-- One iteration of the `defaultMutableClone` / `defaultReadonlyClone` deep
loop.  Unlike the copy package's loop, the value test is
`typeof value !== 'object' || value == null`, so `null` is assigned
verbatim here. -/
def pstep (ro : Bool) (s : DState) : DState :=
  if doneD s then s else
  match s.stack with
  | [] => s
  | it :: rest =>
    match lookupV s.visited it.parent with
    | none => { s with err := some "copyParent not defined" }
    | some pOut =>
      match it.value with
      | .ref a =>
        match lookupV s.visited a with
        | some w => finishCopyItem ro s rest pOut it w
        | none =>
          match s.heap[a]? with
          | none => { s with err := some "dangling reference" }
          | some nd =>
            let o := s.heap.length
            finishCopyItem ro
              { s with
                heap := s.heap ++ [createCopyOutPut nd.data],
                visited := s.visited ++ [(a, .ref o)] }
              ((getCopyItemsStack s.heap a).reverse ++ rest) pOut it (.ref o)
      | v => finishCopyItem ro s rest pOut it v

/-- Initial state of the prtcl deep copy loops. -/
def initCopy (H : Heap) (a : Nat) (nd : Node) : DState :=
  { heap := H ++ [createCopyOutPut nd.data]
    visited := [(a, .ref H.length)]
    stack := (getCopyItemsStack H a).reverse
    trace := []
    err := none }

/-- `defaultMutableClone.call(obj, 'deep')` (the root is a composite; the
`typeof this === 'function'` early return concerns function receivers,
which are not addresses here). -/
def mutableCloneDeep (fuel : Nat) (H : Heap) (a : Nat) :
    Option (Except String (Heap × Val)) :=
  match H[a]? with
  | none => some (.error "dangling reference")
  | some nd =>
    let s := drainWith (pstep false) fuel (initCopy H a nd)
    match s.err with
    | some m => some (.error m)
    | none => if s.stack.isEmpty then some (.ok (s.heap, .ref H.length)) else none

/-- `defaultReadonlyClone.call(obj, 'deep')`: same loop with unconditional
head-freezing, and `Object.freeze(result)` on the root before returning. -/
def readonlyCloneDeep (fuel : Nat) (H : Heap) (a : Nat) :
    Option (Except String (Heap × Val)) :=
  match H[a]? with
  | none => some (.error "dangling reference")
  | some nd =>
    let s := drainWith (pstep true) fuel (initCopy H a nd)
    match s.err with
    | some m => some (.error m)
    | none =>
      if s.stack.isEmpty then
        some (.ok (freezeV s.heap (.ref H.length), .ref H.length))
      else none

/-- `defaultMutableClone` with a non-deep hint: `[...this]` or `{...this}`
(object spread of a Map/Set copies no own properties). -/
def mutableCloneShallow (H : Heap) (a : Nat) : Except String (Heap × Val) :=
  match H[a]? with
  | none => .error "dangling reference"
  | some nd =>
    match nd.data with
    | .arr cs => .ok (H ++ [⟨.arr cs, false, none, none⟩], .ref H.length)
    | .obj fs => .ok (H ++ [⟨.obj (spreadFields fs), false, nd.custom, nd.toJSONm⟩],
                      .ref H.length)
    | _ => .ok (H ++ [⟨.obj [], false, none, none⟩], .ref H.length)

/-- `defaultReadonlyClone` with a non-deep hint: the same copy, frozen. -/
def readonlyCloneShallow (H : Heap) (a : Nat) : Except String (Heap × Val) :=
  match H[a]? with
  | none => .error "dangling reference"
  | some nd =>
    match nd.data with
    | .arr cs => .ok (H ++ [⟨.arr cs, true, none, none⟩], .ref H.length)
    | .obj fs => .ok (H ++ [⟨.obj (spreadFields fs), true, nd.custom, nd.toJSONm⟩],
                      .ref H.length)
    | _ => .ok (H ++ [⟨.obj [], true, none, none⟩], .ref H.length)

/-!
The flatten engine (`defaultFlat` of the prtcl package, with
`getFlatItemsStack` / `createFlatOutPut` from prtcl/utils).
-/

/-- `Symbol.iterator in value`: arrays, Maps and Sets are iterable, plain
objects are not. -/
def isIterableN : NodeData → Bool
  | .obj _ => false
  | _ => true

/-- `createFlatOutPut(value)`: `[]` if iterable, `{}` otherwise. -/
def createFlatOutPut (nd : NodeData) : Node :=
  if isIterableN nd then ⟨.arr [], false, none, none⟩ else ⟨.obj [], false, none, none⟩

/-- `getFlatItemsStack(parent)`: iterables are enumerated via `Array.from`
with index keys — for a Map this materialises each entry as a fresh
two-element array, allocated here — and plain objects via own property
names read through `Reflect.get` (getters evaluated). -/
def getFlatItemsStack (H : Heap) (a : Nat) : Heap × List Item :=
  match H[a]? with
  | none => (H, [])
  | some nd =>
    match nd.data with
    | .arr cs => (H, cs.mapIdx fun i c =>
        ⟨c.getD (.prim .undef), .idx i, getItemType i cs.length, a⟩)
    | .setN xs => (H, xs.mapIdx fun i x =>
        ⟨x, .idx i, getItemType i xs.length, a⟩)
    | .mapN es =>
      (H ++ es.map fun e => ⟨.arr [some e.1, some e.2], false, none, none⟩,
       es.mapIdx fun i _ => ⟨.ref (H.length + i), .idx i, getItemType i es.length, a⟩)
    | .obj fs => (H, fs.mapIdx fun i f =>
        ⟨f.val, .prop f.key, getItemType i fs.length, a⟩)

/-- `Reflect.has(flatParent, key)` on an output node (a hole in an array
does not count as present). -/
def hasKeyData (nd : NodeData) (k : IKey) : Bool :=
  match nd, k with
  | .obj fs, .prop s => fs.any (·.key = s)
  | .arr cs, .idx i =>
    match cs[i]? with
    | some (some _) => true
    | _ => false
  | _, _ => false

/-- `Reflect.has` through a parent-output value. -/
def hasKeyV (H : Heap) (target : Val) (k : IKey) : Bool :=
  match target with
  | .ref p =>
    match H[p]? with
    | some nd => hasKeyData nd.data k
    | none => false
  | _ => false

/-- One iteration of the `defaultFlat` while-loop: functions are dropped,
already-present keys are skipped, `toJSON` results are embedded verbatim
(without registration in the visited map), composites are shelled and
traversed, primitives (including `null`) are embedded as snapshots. -/
def fstep (s : DState) : DState :=
  if doneD s then s else
  match s.stack with
  | [] => s
  | it :: rest =>
    match it.value with
    | .func _ => { s with stack := rest }
    | v =>
      match lookupV s.visited it.parent with
      | none => { s with err := some "FlatParent not defined" }
      | some pOut =>
        if hasKeyV s.heap pOut it.key then { s with stack := rest }
        else
          match v with
          | .ref a =>
            match s.heap[a]? with
            | none => { s with err := some "dangling reference" }
            | some nd =>
              match nd.toJSONm with
              | some (.ret w) =>
                { s with heap := setItemV s.heap pOut it.key w, stack := rest }
              | some (.thrw m) => { s with err := some m }
              | none =>
                match lookupV s.visited a with
                | some w =>
                  { s with heap := setItemV s.heap pOut it.key w, stack := rest }
                | none =>
                  let o := s.heap.length
                  let H1 := s.heap ++ [createFlatOutPut nd.data]
                  let step := getFlatItemsStack H1 a
                  { s with
                    heap := setItemV step.1 pOut it.key (.ref o),
                    visited := s.visited ++ [(a, .ref o)],
                    stack := step.2.reverse ++ rest }
          | v => { s with heap := setItemV s.heap pOut it.key v, stack := rest }

/-- `defaultFlat.call(obj)`: the root-level `toJSON` hook (the
`typeof this === 'function'` and primitive-wrapper cases concern receivers
outside the modelled universe), then the drain loop. -/
def defaultFlat (fuel : Nat) (H : Heap) (a : Nat) :
    Option (Except String (Heap × Val)) :=
  match H[a]? with
  | none => some (.error "dangling reference")
  | some nd =>
    match nd.toJSONm with
    | some (.ret w) => some (.ok (H, w))
    | some (.thrw m) => some (.error m)
    | none =>
      let o := H.length
      let H1 := H ++ [createFlatOutPut nd.data]
      let step := getFlatItemsStack H1 a
      let s := drainWith fstep fuel
        { heap := step.1, visited := [(a, .ref o)], stack := step.2.reverse,
          trace := [], err := none }
      match s.err with
      | some m => some (.error m)
      | none => if s.stack.isEmpty then some (.ok (s.heap, .ref o)) else none

/-!
Deep structural equality (the `assertEquals` notion used by the repository's
tests): fuel-indexed bisimulation, optimistic at depth 0 so that cyclic
graphs compare by unbounded unfolding.  Objects and Maps compare by key
lookup (property order is not observable to `assertEquals`), arrays
positionally, Sets by mutual matching; frozen bits, getters and declared
handlers are not compared.
-/

/-- One unfolding step of deep equality, parametric in the comparison used
for children. -/
def deepEqStep (H : Heap) (rec : Val → Val → Bool) : Val → Val → Bool :=
  fun v w =>
  match v, w with
  | .prim p, .prim q => p = q
  | .func i, .func j => i = j
  | .ref a, .ref b =>
    match H[a]?, H[b]? with
    | some x, some y =>
      match x.data, y.data with
      | .obj fs, .obj gs =>
        (fs.all fun f =>
          match gs.find? (·.key = f.key) with
          | some g => rec f.val g.val
          | none => false) &&
        (gs.all fun g => fs.any (·.key = g.key))
      | .arr cs, .arr ds =>
        decide (cs.length = ds.length) &&
        ((cs.zip ds).all fun cd =>
          match cd with
          | (some c, some d) => rec c d
          | (none, none) => true
          | _ => false)
      | .mapN es, .mapN hs =>
        decide (es.length = hs.length) &&
        (es.all fun e =>
          match hs.find? (·.1 = e.1) with
          | some h2 => rec e.2 h2.2
          | none => false) &&
        (hs.all fun h2 => es.any (·.1 = h2.1))
      | .setN xs, .setN ys =>
        decide (xs.length = ys.length) &&
        (xs.all fun x => ys.any fun y => rec x y) &&
        (ys.all fun y => xs.any fun x => rec x y)
      | _, _ => false
    | _, _ => false
  | _, _ => false

/-- Deep equality to depth `n`. -/
def deepEqN (H : Heap) : Nat → Val → Val → Bool
  | 0 => fun _ _ => true
  | n + 1 => deepEqStep H (deepEqN H n)

/-- Deep equality at every depth. -/
def DeepEq (H : Heap) (v w : Val) : Prop := ∀ n, deepEqN H n v w = true

/-!
Well-formedness of an input heap: every reference points into the heap
(real JS object graphs cannot dangle), object keys and Map keys are
duplicate-free (JS guarantees both).
-/

/-- All references of a value lie below `N`. -/
def valBelow (N : Nat) : Val → Bool
  | .ref a => a < N
  | _ => true

/-- All references of an optional method behaviour lie below `N`. -/
def behaviorBelow (N : Nat) : Option CustomBehavior → Bool
  | some (.ret v) => valBelow N v
  | _ => true

/-- All member references of a node's data lie below `N`. -/
def dataBelow (N : Nat) : NodeData → Bool
  | .obj fs => fs.all fun f => valBelow N f.val
  | .arr cs => cs.all fun c =>
    match c with
    | some v => valBelow N v
    | none => true
  | .mapN es => es.all fun e => valBelow N e.1 && valBelow N e.2
  | .setN xs => xs.all (valBelow N)

/-- Node well-formedness. -/
def nodeWF (N : Nat) (nd : Node) : Bool :=
  dataBelow N nd.data && behaviorBelow N nd.custom && behaviorBelow N nd.toJSONm &&
  (match nd.data with
   | .obj fs => decide (fs.map (·.key)).Nodup
   | .mapN es => decide (es.map (·.1)).Nodup
   | _ => true)

/-- Heap well-formedness. -/
def WF (H : Heap) : Prop := ∀ nd ∈ H, nodeWF H.length nd = true

instance (H : Heap) : Decidable (WF H) :=
  inferInstanceAs (Decidable (∀ nd ∈ H, nodeWF H.length nd = true))

/-!  Basic lemmas about the visited map, the heap and the drain loop. -/

theorem lookupV_append (vs ws : List (Nat × Val)) (b : Nat) :
    lookupV (vs ++ ws) b = (lookupV vs b).or (lookupV ws b) := by
  unfold lookupV
  rw [List.find?_append]
  cases h : vs.find? fun e => e.1 = b <;> simp [Option.or]

theorem lookupV_append_of_some {vs : List (Nat × Val)} {b : Nat} {w : Val}
    (h : lookupV vs b = some w) (ws : List (Nat × Val)) :
    lookupV (vs ++ ws) b = some w := by
  rw [lookupV_append, h]; rfl

theorem lookupV_singleton (a b : Nat) (w : Val) :
    lookupV [(a, w)] b = if a = b then some w else none := by
  unfold lookupV
  by_cases h : a = b <;> simp [List.find?, h]

theorem lookupV_append_single {vs : List (Nat × Val)} {a : Nat} (w : Val) (b : Nat) :
    lookupV (vs ++ [(a, w)]) b =
      ((lookupV vs b).or (if a = b then some w else none)) := by
  rw [lookupV_append, lookupV_singleton]

theorem lookupV_append_single_none {vs : List (Nat × Val)} {a b : Nat} {w : Val}
    (hab : ¬ a = b) : lookupV (vs ++ [(a, w)]) b = lookupV vs b := by
  rw [lookupV_append_single, if_neg hab]
  cases lookupV vs b <;> rfl

theorem lookupV_append_single_self {vs : List (Nat × Val)} {a : Nat} {w : Val}
    (h : lookupV vs a = none) : lookupV (vs ++ [(a, w)]) a = some w := by
  rw [lookupV_append_single, h, if_pos rfl]; rfl

theorem lookupV_none_iff {vs : List (Nat × Val)} {b : Nat} :
    lookupV vs b = none ↔ b ∉ vs.map Prod.fst := by
  unfold lookupV
  rw [Option.map_eq_none', List.find?_eq_none]
  constructor
  · intro h hb
    rcases List.mem_map.1 hb with ⟨e, he, hfst⟩
    exact absurd (by simpa [hfst]) (by simpa using h e he)
  · intro h e he
    simp only [decide_eq_true_eq]
    intro hfst
    exact h (List.mem_map.2 ⟨e, he, hfst⟩)

theorem length_setItemV (H : Heap) (t : Val) (k : IKey) (v : Val) :
    (setItemV H t k v).length = H.length := by
  cases t with
  | ref p => cases h : H[p]? <;> simp [setItemV, h]
  | prim p => rfl
  | func i => rfl

theorem length_freezeV (H : Heap) (t : Val) :
    (freezeV H t).length = H.length := by
  cases t with
  | ref p => cases h : H[p]? <;> simp [freezeV, h]
  | prim p => rfl
  | func i => rfl

theorem get?_set_of_ne (H : Heap) (p b : Nat) (nd : Node) (h : p ≠ b) :
    (H.set p nd)[b]? = H[b]? := by
  rw [List.getElem?_set_ne h]

theorem get?_setItemV_of_lt {H : Heap} {p : Nat} {k : IKey} {v : Val} {b N : Nat}
    (hb : b < N) (hp : N ≤ p) :
    (setItemV H (.ref p) k v)[b]? = H[b]? := by
  cases h : H[p]? with
  | none => simp [setItemV, h]
  | some nd =>
    simp only [setItemV, h]
    exact get?_set_of_ne _ _ _ _ (by omega)

theorem get?_freezeV_of_lt {H : Heap} {p : Nat} {b N : Nat}
    (hb : b < N) (hp : N ≤ p) :
    (freezeV H (.ref p))[b]? = H[b]? := by
  cases h : H[p]? with
  | none => simp [freezeV, h]
  | some nd =>
    simp only [freezeV, h]
    exact get?_set_of_ne _ _ _ _ (by omega)

theorem doneD_false_iff {s : DState} :
    doneD s = false ↔ s.err = none ∧ s.stack ≠ [] := by
  unfold doneD
  cases herr : s.err <;> cases hstack : s.stack <;> simp

theorem drain_of_done {f : DState → DState} {s : DState} (h : doneD s = true) :
    ∀ n, drainWith f n s = s := by
  intro n
  cases n with
  | zero => rfl
  | succ n => unfold drainWith; rw [if_pos h]

theorem drain_succ_of_not_done {f : DState → DState} {s : DState} {n : Nat}
    (h : doneD s = false) :
    drainWith f (n + 1) s = drainWith f n (f s) := by
  show (if doneD s = true then s else drainWith f n (f s)) = _
  rw [if_neg (by simp [h])]

theorem drain_inv {P : DState → Prop} {f : DState → DState}
    (hstep : ∀ s, P s → P (f s)) :
    ∀ n s, P s → P (drainWith f n s) := by
  intro n
  induction n with
  | zero => intro s h; exact h
  | succ n ih =>
    intro s h
    by_cases hd : doneD s = true
    · rw [drain_of_done hd]; exact h
    · rw [drain_succ_of_not_done (by simpa using hd)]
      exact ih _ (hstep s h)

/-!  Characterisations of the `internalClone` branches. -/

theorem internalClone_dangling {H : Heap} {a : Nat} (hint : CloneHint)
    (h : H[a]? = none) :
    internalClone H a hint = ([.queried a], .notCloned) := by
  simp [internalClone, h]

theorem internalClone_custom_ret {H : Heap} {a : Nat} {nd : Node} {v : Val}
    (hint : CloneHint) (hget : H[a]? = some nd) (hc : nd.custom = some (.ret v)) :
    internalClone H a hint = ([.queried a, .invoked a], .cloned v) := by
  simp [internalClone, hget, hc]

theorem internalClone_custom_thrw {H : Heap} {a : Nat} {nd : Node} {m : String}
    (hint : CloneHint) (hget : H[a]? = some nd) (hc : nd.custom = some (.thrw m)) :
    internalClone H a hint = ([.queried a, .invoked a], .thrown m) := by
  simp [internalClone, hget, hc]

theorem internalClone_default {H : Heap} {a : Nat} {nd : Node}
    (hint : CloneHint) (hget : H[a]? = some nd) (hc : nd.custom = none) :
    internalClone H a hint = ([.queried a], .notCloned) := by
  simp [internalClone, hget, hc]

/-!  Characterisations of the `clone.deep` loop branches (`dstep`). -/

theorem dstep_of_done {s : DState} (h : doneD s = true) : dstep s = s := by
  unfold dstep; rw [if_pos h]

theorem dstep_noparent {s : DState} {it : Item} {rest : List Item}
    (herr : s.err = none) (hstack : s.stack = it :: rest)
    (hpar : lookupV s.visited it.parent = none) :
    dstep s = { s with err := some "ParentOut not defined" } := by
  unfold dstep
  rw [if_neg (by simp [doneD, herr, hstack]), hstack]
  simp only [hpar]

theorem dstep_verbatim {s : DState} {it : Item} {rest : List Item} {pOut : Val}
    (herr : s.err = none) (hstack : s.stack = it :: rest)
    (hpar : lookupV s.visited it.parent = some pOut)
    (hval : isObject it.value = false) :
    dstep s = finishItem s rest pOut it it.value := by
  unfold dstep
  rw [if_neg (by simp [doneD, herr, hstack]), hstack]
  simp only [hpar]
  cases hv : it.value with
  | ref a => rw [hv] at hval; simp [isObject] at hval
  | func i => simp only [hv]
  | prim p =>
    cases p with
    | null => rw [hv] at hval; simp [isObject] at hval
    | undef => simp only [hv]
    | num n => simp only [hv]
    | str t => simp only [hv]
    | bool b => simp only [hv]
    | sym i => simp only [hv]
    | bigint n => simp only [hv]

theorem dstep_null {s : DState} {it : Item} {rest : List Item} {pOut : Val}
    (herr : s.err = none) (hstack : s.stack = it :: rest)
    (hpar : lookupV s.visited it.parent = some pOut)
    (hval : it.value = .prim .null) :
    dstep s = { s with err := some nullTypeError } := by
  unfold dstep
  rw [if_neg (by simp [doneD, herr, hstack]), hstack]
  simp only [hpar, hval]

theorem dstep_revisit {s : DState} {it : Item} {rest : List Item} {pOut : Val}
    {a : Nat} {w : Val}
    (herr : s.err = none) (hstack : s.stack = it :: rest)
    (hpar : lookupV s.visited it.parent = some pOut)
    (hval : it.value = .ref a) (hvis : lookupV s.visited a = some w) :
    dstep s = finishItem s rest pOut it w := by
  unfold dstep
  rw [if_neg (by simp [doneD, herr, hstack]), hstack]
  simp only [hpar, hval, hvis]

theorem dstep_custom_ret {s : DState} {it : Item} {rest : List Item} {pOut : Val}
    {a : Nat} {nd : Node} {w : Val}
    (herr : s.err = none) (hstack : s.stack = it :: rest)
    (hpar : lookupV s.visited it.parent = some pOut)
    (hval : it.value = .ref a) (hvis : lookupV s.visited a = none)
    (hget : s.heap[a]? = some nd) (hc : nd.custom = some (.ret w)) :
    dstep s = finishItem
      { s with trace := s.trace ++ [.queried a, .invoked a],
               visited := s.visited ++ [(a, w)] } rest pOut it w := by
  unfold dstep
  rw [if_neg (by simp [doneD, herr, hstack]), hstack]
  simp only [hpar, hval, hvis, internalClone_custom_ret CloneHint.deep hget hc]

theorem dstep_custom_thrw {s : DState} {it : Item} {rest : List Item} {pOut : Val}
    {a : Nat} {nd : Node} {m : String}
    (herr : s.err = none) (hstack : s.stack = it :: rest)
    (hpar : lookupV s.visited it.parent = some pOut)
    (hval : it.value = .ref a) (hvis : lookupV s.visited a = none)
    (hget : s.heap[a]? = some nd) (hc : nd.custom = some (.thrw m)) :
    dstep s = { s with trace := s.trace ++ [.queried a, .invoked a],
                       err := some m } := by
  unfold dstep
  rw [if_neg (by simp [doneD, herr, hstack]), hstack]
  simp only [hpar, hval, hvis, internalClone_custom_thrw CloneHint.deep hget hc]

theorem dstep_dangling {s : DState} {it : Item} {rest : List Item} {pOut : Val}
    {a : Nat}
    (herr : s.err = none) (hstack : s.stack = it :: rest)
    (hpar : lookupV s.visited it.parent = some pOut)
    (hval : it.value = .ref a) (hvis : lookupV s.visited a = none)
    (hget : s.heap[a]? = none) :
    dstep s = { s with trace := s.trace ++ [.queried a],
                       err := some "dangling reference" } := by
  unfold dstep
  rw [if_neg (by simp [doneD, herr, hstack]), hstack]
  simp only [hpar, hval, hvis, internalClone_dangling CloneHint.deep hget, hget]

theorem dstep_default {s : DState} {it : Item} {rest : List Item} {pOut : Val}
    {a : Nat} {nd : Node}
    (herr : s.err = none) (hstack : s.stack = it :: rest)
    (hpar : lookupV s.visited it.parent = some pOut)
    (hval : it.value = .ref a) (hvis : lookupV s.visited a = none)
    (hget : s.heap[a]? = some nd) (hc : nd.custom = none) :
    dstep s = finishItem
      { s with heap := s.heap ++ [createObjectClone nd.data],
               trace := s.trace ++ [.queried a] ++ [.defaulted a],
               visited := s.visited ++ [(a, .ref s.heap.length)] }
      ((getItems s.heap a).reverse ++ rest) pOut it (.ref s.heap.length) := by
  unfold dstep
  rw [if_neg (by simp [doneD, herr, hstack]), hstack]
  simp only [hpar, hval, hvis, internalClone_default CloneHint.deep hget hc, hget]

/-!  Structure of `finishItem` and the exhaustive branch analysis of `dstep`. -/

theorem finishItem_visited (s : DState) (ns : List Item) (pOut : Val) (it : Item)
    (w : Val) : (finishItem s ns pOut it w).visited = s.visited := rfl

theorem finishItem_trace (s : DState) (ns : List Item) (pOut : Val) (it : Item)
    (w : Val) : (finishItem s ns pOut it w).trace = s.trace := rfl

theorem finishItem_err (s : DState) (ns : List Item) (pOut : Val) (it : Item)
    (w : Val) : (finishItem s ns pOut it w).err = s.err := rfl

theorem finishItem_stack (s : DState) (ns : List Item) (pOut : Val) (it : Item)
    (w : Val) : (finishItem s ns pOut it w).stack = ns := rfl

theorem finishItem_heap_length (s : DState) (ns : List Item) (pOut : Val)
    (it : Item) (w : Val) :
    (finishItem s ns pOut it w).heap.length = s.heap.length := by
  simp only [finishItem]
  by_cases h : it.type = IType.head
  · rw [if_pos h]
    by_cases hf : isFrozenAt (setItemV s.heap pOut it.key w) it.parent = true
    · rw [if_pos hf, length_freezeV, length_setItemV]
    · rw [if_neg hf, length_setItemV]
  · rw [if_neg h, length_setItemV]

theorem finishItem_heap_prefix {s : DState} {ns : List Item} {p : Nat}
    {it : Item} {w : Val} {b N : Nat} (hb : b < N) (hp : N ≤ p) :
    (finishItem s ns (.ref p) it w).heap[b]? = s.heap[b]? := by
  simp only [finishItem]
  by_cases h : it.type = IType.head
  · rw [if_pos h]
    by_cases hf : isFrozenAt (setItemV s.heap (.ref p) it.key w) it.parent = true
    · rw [if_pos hf, get?_freezeV_of_lt hb hp, get?_setItemV_of_lt hb hp]
    · rw [if_neg hf, get?_setItemV_of_lt hb hp]
  · rw [if_neg h, get?_setItemV_of_lt hb hp]

/-- `Object.freeze` is the only operation that changes a frozen bit, and
`setItemV` never does. -/
theorem frozen_setItemV (H : Heap) (t : Val) (k : IKey) (v : Val) (b : Nat) :
    ((setItemV H t k v)[b]?).map Node.frozen = (H[b]?).map Node.frozen := by
  cases t with
  | ref p =>
    cases h : H[p]? with
    | none => simp [setItemV, h]
    | some nd =>
      simp only [setItemV, h]
      rw [List.getElem?_set]
      by_cases hpb : p = b
      · subst hpb
        rw [if_pos rfl, if_pos (List.getElem?_eq_some_iff.mp h).1, h]
        rfl
      · rw [if_neg hpb]
  | prim p => rfl
  | func i => rfl

/-- A non-`head` item never changes any frozen bit. -/
theorem frozen_finishItem_of_not_head {s : DState} {ns : List Item} {pOut : Val}
    {it : Item} {w : Val} (h : ¬ it.type = IType.head) (b : Nat) :
    ((finishItem s ns pOut it w).heap[b]?).map Node.frozen =
      (s.heap[b]?).map Node.frozen := by
  simp only [finishItem]
  rw [if_neg h]
  exact frozen_setItemV _ _ _ _ _

/-- A `head` item whose source parent is not frozen does not change any
frozen bit either. -/
theorem frozen_finishItem_of_not_frozen {s : DState} {ns : List Item} {pOut : Val}
    {it : Item} {w : Val}
    (h : isFrozenAt (setItemV s.heap pOut it.key w) it.parent = false) (b : Nat) :
    ((finishItem s ns pOut it w).heap[b]?).map Node.frozen =
      (s.heap[b]?).map Node.frozen := by
  simp only [finishItem]
  by_cases ht : it.type = IType.head
  · rw [if_pos ht, if_neg (by simp [h])]
    exact frozen_setItemV _ _ _ _ _
  · rw [if_neg ht]
    exact frozen_setItemV _ _ _ _ _

/-- Exhaustive analysis of one non-terminal `clone.deep` loop iteration. -/
theorem dstep_branches (s : DState) (hnd : doneD s = false) :
    ∃ it rest, s.stack = it :: rest ∧
    ((lookupV s.visited it.parent = none ∧
        dstep s = { s with err := some "ParentOut not defined" }) ∨
     (∃ pOut, lookupV s.visited it.parent = some pOut ∧ it.value = .prim .null ∧
        dstep s = { s with err := some nullTypeError }) ∨
     (∃ pOut, lookupV s.visited it.parent = some pOut ∧ isObject it.value = false ∧
        dstep s = finishItem s rest pOut it it.value) ∨
     (∃ pOut a w, lookupV s.visited it.parent = some pOut ∧ it.value = .ref a ∧
        lookupV s.visited a = some w ∧
        dstep s = finishItem s rest pOut it w) ∨
     (∃ pOut a, lookupV s.visited it.parent = some pOut ∧ it.value = .ref a ∧
        lookupV s.visited a = none ∧ s.heap[a]? = none ∧
        dstep s = { s with trace := s.trace ++ [.queried a],
                           err := some "dangling reference" }) ∨
     (∃ pOut a nd w, lookupV s.visited it.parent = some pOut ∧ it.value = .ref a ∧
        lookupV s.visited a = none ∧ s.heap[a]? = some nd ∧
        nd.custom = some (.ret w) ∧
        dstep s = finishItem
          { s with trace := s.trace ++ [.queried a, .invoked a],
                   visited := s.visited ++ [(a, w)] } rest pOut it w) ∨
     (∃ pOut a nd m, lookupV s.visited it.parent = some pOut ∧ it.value = .ref a ∧
        lookupV s.visited a = none ∧ s.heap[a]? = some nd ∧
        nd.custom = some (.thrw m) ∧
        dstep s = { s with trace := s.trace ++ [.queried a, .invoked a],
                           err := some m }) ∨
     (∃ pOut a nd, lookupV s.visited it.parent = some pOut ∧ it.value = .ref a ∧
        lookupV s.visited a = none ∧ s.heap[a]? = some nd ∧ nd.custom = none ∧
        dstep s = finishItem
          { s with heap := s.heap ++ [createObjectClone nd.data],
                   trace := s.trace ++ [.queried a] ++ [.defaulted a],
                   visited := s.visited ++ [(a, .ref s.heap.length)] }
          ((getItems s.heap a).reverse ++ rest) pOut it (.ref s.heap.length))) := by
  obtain ⟨herr, hne⟩ := doneD_false_iff.1 hnd
  obtain ⟨it, rest, hstack⟩ : ∃ it rest, s.stack = it :: rest := by
    cases hs : s.stack with
    | nil => exact absurd hs hne
    | cons it rest => exact ⟨it, rest, rfl⟩
  refine ⟨it, rest, hstack, ?_⟩
  cases hpar : lookupV s.visited it.parent with
  | none => exact Or.inl ⟨rfl, dstep_noparent herr hstack hpar⟩
  | some pOut =>
    by_cases hobj : isObject it.value = true
    case neg =>
      refine Or.inr <| Or.inr <| Or.inl ⟨pOut, rfl, by simpa using hobj, ?_⟩
      exact dstep_verbatim herr hstack hpar (by simpa using hobj)
    case pos =>
    cases hval : it.value with
    | ref a =>
      cases hvis : lookupV s.visited a with
      | some w =>
        exact Or.inr <| Or.inr <| Or.inr <| Or.inl
          ⟨pOut, a, w, rfl, rfl, hvis, dstep_revisit herr hstack hpar hval hvis⟩
      | none =>
        cases hget : s.heap[a]? with
        | none =>
          exact Or.inr <| Or.inr <| Or.inr <| Or.inr <| Or.inl
            ⟨pOut, a, rfl, rfl, hvis, hget,
              dstep_dangling herr hstack hpar hval hvis hget⟩
        | some nd =>
          cases hc : nd.custom with
          | none =>
            exact Or.inr <| Or.inr <| Or.inr <| Or.inr <| Or.inr <| Or.inr <| Or.inr
              ⟨pOut, a, nd, rfl, rfl, hvis, hget, hc,
                dstep_default herr hstack hpar hval hvis hget hc⟩
          | some cb =>
            cases cb with
            | ret w =>
              exact Or.inr <| Or.inr <| Or.inr <| Or.inr <| Or.inr <| Or.inl
                ⟨pOut, a, nd, w, rfl, rfl, hvis, hget, hc,
                  dstep_custom_ret herr hstack hpar hval hvis hget hc⟩
            | thrw m =>
              exact Or.inr <| Or.inr <| Or.inr <| Or.inr <| Or.inr <| Or.inr <| Or.inl
                ⟨pOut, a, nd, m, rfl, rfl, hvis, hget, hc,
                  dstep_custom_thrw herr hstack hpar hval hvis hget hc⟩
    | func i => exact absurd hobj (by rw [hval]; simp [isObject])
    | prim p =>
      cases p with
      | null =>
        exact Or.inr <| Or.inl ⟨pOut, rfl, rfl, dstep_null herr hstack hpar hval⟩
      | undef => exact absurd hobj (by rw [hval]; simp [isObject])
      | num n => exact absurd hobj (by rw [hval]; simp [isObject])
      | str t => exact absurd hobj (by rw [hval]; simp [isObject])
      | bool b => exact absurd hobj (by rw [hval]; simp [isObject])
      | sym i => exact absurd hobj (by rw [hval]; simp [isObject])
      | bigint n => exact absurd hobj (by rw [hval]; simp [isObject])


end PrtclSpec

namespace PrtclSpec

/-!  Membership in `mapIdx`-built item lists. -/

theorem mem_mapIdx {α β : Type _} {l : List α} {f : Nat → α → β} {b : β} :
    b ∈ l.mapIdx f ↔ ∃ i, ∃ h : i < l.length, b = f i l[i] := by
  rw [List.mem_iff_getElem]
  constructor
  · rintro ⟨i, h, hEq⟩
    refine ⟨i, by simpa using h, ?_⟩
    rw [← hEq, List.getElem_mapIdx]
  · rintro ⟨i, h, hEq⟩
    refine ⟨i, by simpa using h, ?_⟩
    rw [List.getElem_mapIdx, hEq]

theorem getItems_congr {H H2 : Heap} {a : Nat} (h : H2[a]? = H[a]?) :
    getItems H2 a = getItems H a := by
  unfold getItems; rw [h]

/-- Every item produced by `getItems` carries the enumerated parent. -/
theorem getItems_parent {H : Heap} {a : Nat} {it : Item}
    (hit : it ∈ getItems H a) : it.parent = a := by
  unfold getItems at hit
  cases hget : H[a]? with
  | none => simp only [hget] at hit; cases hit
  | some nd =>
    simp only [hget] at hit
    cases hd : nd.data with
    | obj fs =>
      simp only [hd] at hit; obtain ⟨i, hi, rfl⟩ := mem_mapIdx.1 hit; rfl
    | arr cs =>
      simp only [hd] at hit; obtain ⟨i, hi, rfl⟩ := mem_mapIdx.1 hit; rfl
    | mapN es =>
      simp only [hd] at hit; obtain ⟨i, hi, rfl⟩ := mem_mapIdx.1 hit; rfl
    | setN xs =>
      simp only [hd] at hit; obtain ⟨i, hi, rfl⟩ := mem_mapIdx.1 hit; rfl

/-- On a well-bounded node, every enumerated item value is well bounded. -/
theorem getItems_value_below {H : Heap} {a N : Nat} {nd : Node} {it : Item}
    (hget : H[a]? = some nd) (hdb : dataBelow N nd.data = true)
    (hit : it ∈ getItems H a) : valBelow N it.value = true := by
  unfold getItems at hit
  simp only [hget] at hit
  unfold dataBelow at hdb
  cases hd : nd.data with
  | obj fs =>
    simp only [hd] at hit hdb
    obtain ⟨i, hi, rfl⟩ := mem_mapIdx.1 hit
    exact (List.all_eq_true.1 hdb) _ (List.getElem_mem hi)
  | arr cs =>
    simp only [hd] at hit hdb
    obtain ⟨i, hi, rfl⟩ := mem_mapIdx.1 hit
    have := (List.all_eq_true.1 hdb) _ (List.getElem_mem hi)
    cases hc : cs[i] with
    | none => simp [Option.getD, valBelow]
    | some v => rw [hc] at this; simpa [hc, Option.getD] using this
  | mapN es =>
    simp only [hd] at hit hdb
    obtain ⟨i, hi, rfl⟩ := mem_mapIdx.1 hit
    have := (List.all_eq_true.1 hdb) _ (List.getElem_mem hi)
    rw [Bool.and_eq_true] at this
    exact this.2
  | setN xs =>
    simp only [hd] at hit hdb
    obtain ⟨i, hi, rfl⟩ := mem_mapIdx.1 hit
    exact (List.all_eq_true.1 hdb) _ (List.getElem_mem hi)

/-!  The visited map: duplicate-freedom and monotonicity. -/

theorem nodup_keys_append {vs : List (Nat × Val)} {a : Nat} {w : Val}
    (h : (vs.map Prod.fst).Nodup) (hn : lookupV vs a = none) :
    ((vs ++ [(a, w)]).map Prod.fst).Nodup := by
  rw [List.map_append]
  refine h.append (by simp) ?_
  intro x hx hx2
  simp only [List.map_cons, List.map_nil, List.mem_singleton] at hx2
  subst hx2
  exact (lookupV_none_iff.1 hn) hx

/-- One `clone.deep` step either keeps the visited map or appends one fresh
binding. -/
theorem dstep_visited_extend (s : DState) :
    (dstep s).visited = s.visited ∨
    ∃ a w, lookupV s.visited a = none ∧
      (dstep s).visited = s.visited ++ [(a, w)] := by
  by_cases hnd : doneD s = true
  · rw [dstep_of_done hnd]; exact Or.inl rfl
  rcases dstep_branches s (by simpa using hnd) with
    ⟨it, rest, hstack, hb | hb | hb | hb | hb | hb | hb | hb⟩
  · rw [hb.2]; exact Or.inl rfl
  · obtain ⟨pOut, _, _, he⟩ := hb; rw [he]; exact Or.inl rfl
  · obtain ⟨pOut, _, _, he⟩ := hb
    rw [he, finishItem_visited]; exact Or.inl rfl
  · obtain ⟨pOut, a, w, _, _, _, he⟩ := hb
    rw [he, finishItem_visited]; exact Or.inl rfl
  · obtain ⟨pOut, a, _, _, _, _, he⟩ := hb; rw [he]; exact Or.inl rfl
  · obtain ⟨pOut, a, nd, w, _, _, hvis, _, _, he⟩ := hb
    rw [he, finishItem_visited]
    exact Or.inr ⟨a, w, hvis, rfl⟩
  · obtain ⟨pOut, a, nd, m, _, _, hvis, _, _, he⟩ := hb; rw [he]; exact Or.inl rfl
  · obtain ⟨pOut, a, nd, _, _, hvis, _, _, he⟩ := hb
    rw [he, finishItem_visited]
    exact Or.inr ⟨a, .ref s.heap.length, hvis, rfl⟩

theorem dstep_visited_nodup {s : DState}
    (h : (s.visited.map Prod.fst).Nodup) :
    ((dstep s).visited.map Prod.fst).Nodup := by
  rcases dstep_visited_extend s with he | ⟨a, w, hn, he⟩
  · rw [he]; exact h
  · rw [he]; exact nodup_keys_append h hn

theorem dstep_lookup_mono {s : DState} {b : Nat} {w : Val}
    (h : lookupV s.visited b = some w) :
    lookupV (dstep s).visited b = some w := by
  rcases dstep_visited_extend s with he | ⟨a, w2, hn, he⟩
  · rw [he]; exact h
  · rw [he]; exact lookupV_append_of_some h _

end PrtclSpec

namespace PrtclSpec

/-!  The termination measure of the `clone.deep` drain loop. -/

/-- Total remaining enumeration cost of the input composites not yet in the
visited map. -/
def unvisitedWeight (A : Heap) (vis : List (Nat × Val)) : Nat :=
  ∑ b in (Finset.range A.length).filter (fun b => lookupV vis b = none),
    (1 + (getItems A b).length)

/-- Loop measure: pending work items plus unvisited enumeration cost. -/
def measureD (A : Heap) (s : DState) : Nat :=
  s.stack.length + unvisitedWeight A s.visited

theorem unvisitedWeight_append {A : Heap} {vis : List (Nat × Val)} {a : Nat}
    {w : Val} (ha : a < A.length) (hnone : lookupV vis a = none) :
    unvisitedWeight A (vis ++ [(a, w)]) + (1 + (getItems A a).length) =
      unvisitedWeight A vis := by
  unfold unvisitedWeight
  have hset : (Finset.range A.length).filter
      (fun b => lookupV (vis ++ [(a, w)]) b = none) =
    ((Finset.range A.length).filter (fun b => lookupV vis b = none)).erase a := by
    ext b
    simp only [Finset.mem_erase, Finset.mem_filter, Finset.mem_range]
    constructor
    · rintro ⟨hb, hl⟩
      by_cases hab : a = b
      · subst hab
        rw [lookupV_append_single_self hnone] at hl
        cases hl
      · rw [lookupV_append_single_none hab] at hl
        exact ⟨fun hba => hab hba.symm, hb, hl⟩
    · rintro ⟨hba, hb, hl⟩
      refine ⟨hb, ?_⟩
      rw [lookupV_append_single_none fun h => hba h.symm]
      exact hl
  rw [hset]
  have hmem : a ∈ (Finset.range A.length).filter
      (fun b => lookupV vis b = none) := by
    simp only [Finset.mem_filter, Finset.mem_range]
    exact ⟨ha, hnone⟩
  rw [Nat.add_comm]
  exact Finset.add_sum_erase _ (fun b => 1 + (getItems A b).length) hmem

/-- Loop invariant of the `clone.deep` drain over a well-formed input heap
`A`: the input prefix of the live heap is untouched, every pending reference
points into the input prefix, and every pending item's parent is registered
in the visited map with an output allocated outside the input prefix. -/
structure TInv (A : Heap) (s : DState) : Prop where
  len_le : A.length ≤ s.heap.length
  prefix_eq : ∀ b, b < A.length → s.heap[b]? = A[b]?
  stack_val : ∀ it ∈ s.stack, ∀ b, it.value = .ref b → b < A.length
  parent_out : ∀ it ∈ s.stack, ∃ p, lookupV s.visited it.parent = some (.ref p) ∧
      A.length ≤ p

theorem WF_node_below {A : Heap} (hWF : WF A) {a : Nat} {nd : Node}
    (hget : A[a]? = some nd) : dataBelow A.length nd.data = true := by
  have hmem : nd ∈ A := by
    obtain ⟨hlt, heq⟩ := List.getElem?_eq_some_iff.1 hget
    exact heq ▸ List.getElem_mem hlt
  have := hWF nd hmem
  unfold nodeWF at this
  rw [Bool.and_eq_true, Bool.and_eq_true, Bool.and_eq_true] at this
  exact this.1.1.1

/-- The combined preservation / decrease lemma for one loop iteration. -/
theorem dstep_measure {A : Heap} (hWF : WF A) {s : DState}
    (hinv : TInv A s) (hnd : doneD s = false) :
    doneD (dstep s) = true ∨
      (TInv A (dstep s) ∧ measureD A (dstep s) < measureD A s) := by
  rcases dstep_branches s hnd with
    ⟨it, rest, hstack, hb | hb | hb | hb | hb | hb | hb | hb⟩
  · rw [hb.2]; exact Or.inl (by simp [doneD])
  · obtain ⟨pOut, _, _, he⟩ := hb
    rw [he]; exact Or.inl (by simp [doneD])
  -- verbatim and revisit branches: pop one item, touch only the parent output
  · obtain ⟨pOut, hpar, hno, he⟩ := hb
    obtain ⟨p, hp, hpN⟩ := hinv.parent_out it (hstack ▸ List.mem_cons_self it rest)
    have hpeq : pOut = .ref p := by rw [hpar] at hp; exact Option.some_inj.1 hp
    subst hpeq
    refine Or.inr ⟨?_, ?_⟩
    · refine ⟨?_, ?_, ?_, ?_⟩
      · rw [he, finishItem_heap_length]; exact hinv.len_le
      · intro b hbA
        rw [he, finishItem_heap_prefix hbA hpN]
        exact hinv.prefix_eq b hbA
      · intro it2 hit2 b hval
        rw [he, finishItem_stack] at hit2
        exact hinv.stack_val it2 (hstack ▸ List.mem_cons_of_mem it hit2) b hval
      · intro it2 hit2
        rw [he, finishItem_stack] at hit2
        rw [he, finishItem_visited]
        exact hinv.parent_out it2 (hstack ▸ List.mem_cons_of_mem it hit2)
    · unfold measureD
      rw [he, finishItem_stack, finishItem_visited, hstack]
      simp only [List.length_cons]
      omega
  · obtain ⟨pOut, a, w, hpar, hval, hvis, he⟩ := hb
    obtain ⟨p, hp, hpN⟩ := hinv.parent_out it (hstack ▸ List.mem_cons_self it rest)
    have hpeq : pOut = .ref p := by rw [hpar] at hp; exact Option.some_inj.1 hp
    subst hpeq
    refine Or.inr ⟨?_, ?_⟩
    · refine ⟨?_, ?_, ?_, ?_⟩
      · rw [he, finishItem_heap_length]; exact hinv.len_le
      · intro b hbA
        rw [he, finishItem_heap_prefix hbA hpN]
        exact hinv.prefix_eq b hbA
      · intro it2 hit2 b hv
        rw [he, finishItem_stack] at hit2
        exact hinv.stack_val it2 (hstack ▸ List.mem_cons_of_mem it hit2) b hv
      · intro it2 hit2
        rw [he, finishItem_stack] at hit2
        rw [he, finishItem_visited]
        exact hinv.parent_out it2 (hstack ▸ List.mem_cons_of_mem it hit2)
    · unfold measureD
      rw [he, finishItem_stack, finishItem_visited, hstack]
      simp only [List.length_cons]
      omega
  · obtain ⟨pOut, a, _, _, _, _, he⟩ := hb; rw [he]; exact Or.inl (by simp [doneD])
  -- custom handler branch: one fresh visited binding, nothing pushed
  · obtain ⟨pOut, a, nd, w, hpar, hval, hvis, hget, hc, he⟩ := hb
    obtain ⟨p, hp, hpN⟩ := hinv.parent_out it (hstack ▸ List.mem_cons_self it rest)
    have hpeq : pOut = .ref p := by rw [hpar] at hp; exact Option.some_inj.1 hp
    subst hpeq
    have haA : a < A.length :=
      hinv.stack_val it (hstack ▸ List.mem_cons_self it rest) a hval
    have hw := unvisitedWeight_append (A := A) (w := w) haA hvis
    refine Or.inr ⟨?_, ?_⟩
    · refine ⟨?_, ?_, ?_, ?_⟩
      · rw [he, finishItem_heap_length]; exact hinv.len_le
      · intro b hbA
        rw [he, finishItem_heap_prefix hbA hpN]
        exact hinv.prefix_eq b hbA
      · intro it2 hit2 b hv
        rw [he, finishItem_stack] at hit2
        exact hinv.stack_val it2 (hstack ▸ List.mem_cons_of_mem it hit2) b hv
      · intro it2 hit2
        rw [he, finishItem_stack] at hit2
        rw [he, finishItem_visited]
        obtain ⟨p2, hp2, hp2N⟩ :=
          hinv.parent_out it2 (hstack ▸ List.mem_cons_of_mem it hit2)
        exact ⟨p2, lookupV_append_of_some hp2 _, hp2N⟩
    · unfold measureD
      rw [he, finishItem_stack, finishItem_visited, hstack]
      simp only [List.length_cons]
      omega
  · obtain ⟨pOut, a, nd, m, _, _, _, _, _, he⟩ := hb
    rw [he]; exact Or.inl (by simp [doneD])
  -- default branch: shell allocated, children pushed, fresh visited binding
  · obtain ⟨pOut, a, nd, hpar, hval, hvis, hget, hc, he⟩ := hb
    obtain ⟨p, hp, hpN⟩ := hinv.parent_out it (hstack ▸ List.mem_cons_self it rest)
    have hpeq : pOut = .ref p := by rw [hpar] at hp; exact Option.some_inj.1 hp
    subst hpeq
    have haA : a < A.length :=
      hinv.stack_val it (hstack ▸ List.mem_cons_self it rest) a hval
    have hgetA : A[a]? = some nd := by rw [← hinv.prefix_eq a haA]; exact hget
    have hitems : getItems s.heap a = getItems A a :=
      getItems_congr (by rw [hget, hgetA])
    have hw := unvisitedWeight_append (A := A) (w := Val.ref s.heap.length) haA hvis
    have hlen := hinv.len_le
    refine Or.inr ⟨?_, ?_⟩
    · refine ⟨?_, ?_, ?_, ?_⟩
      · rw [he, finishItem_heap_length]
        simp only [List.length_append, List.length_cons, List.length_nil]
        omega
      · intro b hbA
        rw [he, finishItem_heap_prefix hbA hpN]
        simp only
        rw [List.getElem?_append_left (by omega)]
        exact hinv.prefix_eq b hbA
      · intro it2 hit2 b hv
        rw [he, finishItem_stack] at hit2
        rcases List.mem_append.1 hit2 with hleft | hright
        · have hmem : it2 ∈ getItems A a := by
            rw [← hitems]; exact List.mem_reverse.1 hleft
          have := getItems_value_below hgetA (WF_node_below hWF hgetA) hmem
          rw [hv] at this
          simpa [valBelow] using this
        · exact hinv.stack_val it2 (hstack ▸ List.mem_cons_of_mem it hright) b hv
      · intro it2 hit2
        rw [he, finishItem_stack] at hit2
        rw [he, finishItem_visited]
        rcases List.mem_append.1 hit2 with hleft | hright
        · have hmem : it2 ∈ getItems A a := by
            rw [← hitems]; exact List.mem_reverse.1 hleft
          have hpar2 : it2.parent = a := getItems_parent hmem
          refine ⟨s.heap.length, ?_, hinv.len_le⟩
          rw [hpar2]
          exact lookupV_append_single_self hvis
        · obtain ⟨p2, hp2, hp2N⟩ :=
            hinv.parent_out it2 (hstack ▸ List.mem_cons_of_mem it hright)
          exact ⟨p2, lookupV_append_of_some hp2 _, hp2N⟩
    · unfold measureD
      rw [he, finishItem_stack, finishItem_visited, hstack]
      simp only [List.length_cons, List.length_append, List.length_reverse, hitems]
      omega

/-- With fuel exceeding the measure, the drain loop finishes. -/
theorem drain_terminates {A : Heap} (hWF : WF A) :
    ∀ fuel s, TInv A s → measureD A s < fuel →
      doneD (drainWith dstep fuel s) = true := by
  intro fuel
  induction fuel with
  | zero => intro s _ h; omega
  | succ n ih =>
    intro s hinv hm
    by_cases hd : doneD s = true
    · rw [drain_of_done hd n.succ]; exact hd
    · rw [drain_succ_of_not_done (by simpa using hd)]
      rcases dstep_measure hWF hinv (by simpa using hd) with h1 | ⟨hinv2, hm2⟩
      · rw [drain_of_done h1 n]; exact h1
      · exact ih _ hinv2 (by omega)

end PrtclSpec

namespace PrtclSpec

/-!  Read-out helpers for stating results: property access and frozen state
through a result value. -/

/-- `v.k` — read an object property of a result value. -/
def objField (H : Heap) (v : Val) (k : String) : Option Val :=
  match v with
  | .ref p =>
    match H[p]? with
    | some nd =>
      match nd.data with
      | .obj fs => (fs.find? (·.key = k)).map (·.val)
      | _ => none
    | _ => none
  | _ => none

/-- `Object.isFrozen(v)` of a result value. -/
def frozenOf (H : Heap) (v : Val) : Option Bool :=
  match v with
  | .ref p => (H[p]?).map (·.frozen)
  | _ => none

/-- `a = {}; a.self = a` -/
def cycleHeap : Heap := [⟨.obj [⟨"self", false, .ref 0⟩], false, none, none⟩]

/-- `shared = {x:1}; obj = {a: shared, b: shared}` -/
def sharedHeap : Heap :=
  [⟨.obj [⟨"a", false, .ref 1⟩, ⟨"b", false, .ref 1⟩], false, none, none⟩,
   ⟨.obj [⟨"x", false, .prim (.num 1)⟩], false, none, none⟩]

theorem TInv_initDeep {H : Heap} {a : Nat} {nd : Node} {evs : List Ev}
    (hWF : WF H) (hget : H[a]? = some nd) :
    TInv H (initDeep H a nd evs) := by
  refine ⟨?_, ?_, ?_, ?_⟩
  · simp [initDeep]
  · intro b hb
    simp only [initDeep]
    exact List.getElem?_append_left hb
  · intro it hit b hv
    simp only [initDeep] at hit
    have hmem : it ∈ getItems H a := List.mem_reverse.1 hit
    have := getItems_value_below hget (WF_node_below hWF hget) hmem
    rw [hv] at this
    simpa [valBelow] using this
  · intro it hit
    simp only [initDeep] at hit
    have hmem : it ∈ getItems H a := List.mem_reverse.1 hit
    refine ⟨H.length, ?_, Nat.le_refl _⟩
    simp only [initDeep]
    rw [getItems_parent hmem, lookupV_singleton, if_pos rfl]

theorem cloneDeep_isSome_of_heap {H : Heap} {a : Nat} (hWF : WF H) :
    ∃ fuel, (cloneDeep fuel H (.ref a)).isSome := by
  cases hget : H[a]? with
  | none =>
    refine ⟨0, ?_⟩
    simp [cloneDeep, cloneDeepState, internalClone_dangling CloneHint.deep hget, hget]
  | some nd =>
    cases hc : nd.custom with
    | some cb =>
      cases cb with
      | ret w =>
        refine ⟨0, ?_⟩
        simp [cloneDeep, internalClone_custom_ret CloneHint.deep hget hc]
      | thrw m =>
        refine ⟨0, ?_⟩
        simp [cloneDeep, internalClone_custom_thrw CloneHint.deep hget hc]
    | none =>
      set s0 := initDeep H a nd [.queried a] with hs0
      refine ⟨measureD H s0 + 1, ?_⟩
      have hdone := drain_terminates hWF (measureD H s0 + 1) s0
        (TInv_initDeep hWF hget) (Nat.lt_succ_self _)
      simp only [cloneDeep, internalClone_default CloneHint.deep hget hc,
        cloneDeepState, hget]
      set s1 := drainWith dstep (measureD H s0 + 1) s0 with hs1
      cases herr : s1.err with
      | some m => simp
      | none =>
        have : s1.stack.isEmpty = true := by
          unfold doneD at hdone
          rw [herr] at hdone
          simpa using hdone
        simp [this]

/-- Claim C1: for every (well-formed, as every real JS object graph is)
input graph, `clone.deep` terminates — there is a fuel bound after which the
drain loop has finished — and on the cyclic example `a = {}; a.self = a` the
resulting copy preserves the self-reference: `result.self === result`. -/
theorem claim_C1_cycle_safety :
    (∀ (H : Heap) (v : Val), WF H → ∃ fuel, (cloneDeep fuel H v).isSome) ∧
    (∃ H2 r, cloneDeep 10 cycleHeap (.ref 0) = some (.ok (H2, r)) ∧
      objField H2 r "self" = some r) := by
  constructor
  · intro H v hWF
    cases v with
    | ref a => exact cloneDeep_isSome_of_heap hWF
    | func i => exact ⟨0, rfl⟩
    | prim p => cases p <;> exact ⟨0, rfl⟩
  · exact ⟨_, _, rfl, rfl⟩

/-- Witness for the universally quantified part of C1 at the concrete
cyclic heap. -/
theorem claim_C1_cycle_safety_witness :
    ∃ fuel, (cloneDeep fuel cycleHeap (.ref 0)).isSome :=
  claim_C1_cycle_safety.1 cycleHeap (.ref 0) (by decide)

/-- Claim C2: the visited map binds each composite at most once (its key
list stays duplicate-free throughout any drain of the `clone.deep` loop);
re-encountering a visited composite assigns the existing output without any
re-processing (no new binding, no events, no allocation, nothing pushed);
and on `shared = {x:1}; obj = {a:shared, b:shared}` both output fields are
the same single cloned node. -/
theorem claim_C2_shared_once :
    (∀ fuel H a s, cloneDeepState fuel H a = some s →
      (s.visited.map Prod.fst).Nodup) ∧
    (∀ s it rest a pOut w, s.err = none → s.stack = it :: rest →
      lookupV s.visited it.parent = some pOut → it.value = .ref a →
      lookupV s.visited a = some w →
      (dstep s).visited = s.visited ∧ (dstep s).trace = s.trace ∧
      (dstep s).stack = rest ∧ (dstep s).heap.length = s.heap.length) ∧
    (∃ H2 r w p, cloneDeep 10 sharedHeap (.ref 0) = some (.ok (H2, r)) ∧
      objField H2 r "a" = some w ∧ objField H2 r "b" = some w ∧ w = .ref p) := by
  refine ⟨?_, ?_, ?_⟩
  · intro fuel H a s hs
    unfold cloneDeepState at hs
    cases hI : internalClone H a .deep with
    | mk evs r =>
      rw [hI] at hs
      cases r with
      | cloned w => cases hs
      | thrown m => cases hs
      | notCloned =>
        cases hget : H[a]? with
        | none => rw [hget] at hs; cases hs
        | some nd =>
          rw [hget] at hs
          have hs2 : drainWith dstep fuel (initDeep H a nd evs) = s :=
            Option.some_inj.1 hs
          rw [← hs2]
          exact drain_inv (P := fun s2 => (s2.visited.map Prod.fst).Nodup)
            (fun s2 h => dstep_visited_nodup h) fuel _ (by simp [initDeep])
  · intro s it rest a pOut w herr hstack hpar hval hvis
    rw [dstep_revisit herr hstack hpar hval hvis]
    exact ⟨finishItem_visited _ _ _ _ _, finishItem_trace _ _ _ _ _,
      finishItem_stack _ _ _ _ _, finishItem_heap_length _ _ _ _ _⟩
  · exact ⟨_, _, .ref 3, 3, rfl, rfl, rfl, rfl⟩

/-- The loop state of the shared-reference run just before the second
encounter of `shared` (only the `a` item remains; `shared` is visited). -/
def preRevisitState : DState :=
  { heap := sharedHeap ++
      [⟨.obj [], false, none, none⟩, ⟨.obj [], false, none, none⟩],
    visited := [(0, .ref 2), (1, .ref 3)],
    stack := [⟨.ref 1, .prop "a", .head, 0⟩],
    trace := [], err := none }

/-- Witness for the hypotheses of C2 at the concrete shared heap: the final
visited map of the run binds each of the two source composites once, and the
re-encounter step lemma applied at the state just before the second
encounter of `shared`. -/
theorem claim_C2_shared_once_witness :
    ((drainWith dstep 10 (initDeep sharedHeap 0
        ⟨.obj [⟨"a", false, .ref 1⟩, ⟨"b", false, .ref 1⟩], false, none, none⟩
        [.queried 0])).visited.map Prod.fst).Nodup ∧
    (dstep preRevisitState).visited = [(0, .ref 2), (1, .ref 3)] := by
  constructor
  · exact claim_C2_shared_once.1 10 sharedHeap 0 _ rfl
  · exact (claim_C2_shared_once.2.1 preRevisitState
      ⟨.ref 1, .prop "a", .head, 0⟩ [] 1 (.ref 2) (.ref 3)
      rfl rfl rfl rfl rfl).1

end PrtclSpec

namespace PrtclSpec

/-!  Freeze discipline of the `clone.deep` loop. -/

theorem isFrozenAt_eq_map (H : Heap) (p : Nat) :
    isFrozenAt H p = ((H[p]?).map Node.frozen).getD false := by
  unfold isFrozenAt
  cases H[p]? <;> rfl

/-- A loop iteration that pops a non-`head` item changes no frozen bit of
any already-allocated node. -/
theorem dstep_frozen_not_head {s : DState} {it : Item} {rest : List Item}
    (herr : s.err = none) (hstack : s.stack = it :: rest)
    (hhead : ¬ it.type = IType.head) (b : Nat) (hb : b < s.heap.length) :
    ((dstep s).heap[b]?).map Node.frozen = (s.heap[b]?).map Node.frozen := by
  have hnd : doneD s = false := doneD_false_iff.2 ⟨herr, by rw [hstack]; simp⟩
  rcases dstep_branches s hnd with
    ⟨it2, rest2, hstack2, hb2 | hb2 | hb2 | hb2 | hb2 | hb2 | hb2 | hb2⟩
  all_goals rw [hstack] at hstack2
  all_goals obtain ⟨rfl, rfl⟩ :=
    And.intro (List.cons.injEq .. ▸ hstack2).1 (List.cons.injEq .. ▸ hstack2).2
  · rw [hb2.2]
  · obtain ⟨pOut, _, _, he⟩ := hb2; rw [he]
  · obtain ⟨pOut, _, _, he⟩ := hb2
    rw [he]
    exact frozen_finishItem_of_not_head hhead b
  · obtain ⟨pOut, a, w, _, _, _, he⟩ := hb2
    rw [he]
    exact frozen_finishItem_of_not_head hhead b
  · obtain ⟨pOut, a, _, _, _, _, he⟩ := hb2; rw [he]
  · obtain ⟨pOut, a, nd, w, _, _, _, _, _, he⟩ := hb2
    rw [he]
    exact frozen_finishItem_of_not_head hhead b
  · obtain ⟨pOut, a, nd, m, _, _, _, _, _, he⟩ := hb2; rw [he]
  · obtain ⟨pOut, a, nd, _, _, _, _, _, he⟩ := hb2
    rw [he, frozen_finishItem_of_not_head hhead b]
    simp only
    rw [List.getElem?_append_left hb]

end PrtclSpec

namespace PrtclSpec

/-- A loop iteration whose item has a non-frozen source parent (present in
the live heap) changes no frozen bit of any already-allocated node. -/
theorem dstep_frozen_unfrozen_parent {s : DState} {it : Item} {rest : List Item}
    (herr : s.err = none) (hstack : s.stack = it :: rest)
    (hplt : it.parent < s.heap.length)
    (hfp : isFrozenAt s.heap it.parent = false) (b : Nat)
    (hb : b < s.heap.length) :
    ((dstep s).heap[b]?).map Node.frozen = (s.heap[b]?).map Node.frozen := by
  have hnd : doneD s = false := doneD_false_iff.2 ⟨herr, by rw [hstack]; simp⟩
  rcases dstep_branches s hnd with
    ⟨it2, rest2, hstack2, hb2 | hb2 | hb2 | hb2 | hb2 | hb2 | hb2 | hb2⟩
  all_goals rw [hstack] at hstack2
  all_goals obtain ⟨rfl, rfl⟩ :=
    And.intro (List.cons.injEq .. ▸ hstack2).1 (List.cons.injEq .. ▸ hstack2).2
  · rw [hb2.2]
  · obtain ⟨pOut, _, _, he⟩ := hb2; rw [he]
  · obtain ⟨pOut, _, _, he⟩ := hb2
    rw [he]
    refine frozen_finishItem_of_not_frozen ?_ b
    rw [isFrozenAt_eq_map, frozen_setItemV, ← isFrozenAt_eq_map, hfp]
  · obtain ⟨pOut, a, w, _, _, _, he⟩ := hb2
    rw [he]
    refine frozen_finishItem_of_not_frozen ?_ b
    rw [isFrozenAt_eq_map, frozen_setItemV, ← isFrozenAt_eq_map, hfp]
  · obtain ⟨pOut, a, _, _, _, _, he⟩ := hb2; rw [he]
  · obtain ⟨pOut, a, nd, w, _, _, _, _, _, he⟩ := hb2
    rw [he]
    refine frozen_finishItem_of_not_frozen ?_ b
    rw [isFrozenAt_eq_map, frozen_setItemV, ← isFrozenAt_eq_map, hfp]
  · obtain ⟨pOut, a, nd, m, _, _, _, _, _, he⟩ := hb2; rw [he]
  · obtain ⟨pOut, a, nd, _, _, _, _, _, he⟩ := hb2
    rw [he]
    have hcond : isFrozenAt
        (setItemV (s.heap ++ [createObjectClone nd.data]) pOut it.key
          (.ref s.heap.length)) it.parent = false := by
      rw [isFrozenAt_eq_map, frozen_setItemV,
        List.getElem?_append_left hplt, ← isFrozenAt_eq_map, hfp]
    rw [frozen_finishItem_of_not_frozen hcond b]
    simp only
    rw [List.getElem?_append_left hb]

/-- Read the root frozen bit of an engine result. -/
def resultRootFrozen (res : Option (Except String (Heap × Val))) : Option Bool :=
  match res with
  | some (.ok (H2, r)) => frozenOf H2 r
  | _ => none

/-- Read the frozen bit of the `k` field of an engine result. -/
def resultNestedFrozen (res : Option (Except String (Heap × Val))) (k : String) :
    Option Bool :=
  match res with
  | some (.ok (H2, r)) => (objField H2 r k).bind fun w => frozenOf H2 w
  | _ => none

/-- `Object.freeze({a: Object.freeze({})})` — frozen root, frozen but empty
nested composite. -/
def frozenEmptyNestedHeap : Heap :=
  [⟨.obj [⟨"a", false, .ref 1⟩], true, none, none⟩,
   ⟨.obj [], true, none, none⟩]

/-- `Object.freeze({a: Object.freeze({b: 1})})` — frozen root, frozen
non-empty nested composite. -/
def frozenPairHeap : Heap :=
  [⟨.obj [⟨"a", false, .ref 1⟩], true, none, none⟩,
   ⟨.obj [⟨"b", false, .prim (.num 1)⟩], true, none, none⟩]

/-- `Object.freeze({a: {b: 1}})` — frozen root, non-frozen nested. -/
def frozenMixedHeap : Heap :=
  [⟨.obj [⟨"a", false, .ref 1⟩], true, none, none⟩,
   ⟨.obj [⟨"b", false, .prim (.num 1)⟩], false, none, none⟩]

/-- Counterexample to claim C5 as stated: the nested composite of
`frozenEmptyNestedHeap` is frozen in the source, yet `clone.deep` leaves its
output non-frozen, because the flag is only applied at a `head` work item
and an empty composite has none. -/
theorem claim_C5_counterexample :
    frozenOf frozenEmptyNestedHeap (.ref 1) = some true ∧
    resultNestedFrozen (cloneDeep 10 frozenEmptyNestedHeap (.ref 0)) "a" =
      some false ∧
    resultRootFrozen (cloneDeep 10 frozenEmptyNestedHeap (.ref 0)) = some true :=
  ⟨rfl, rfl, rfl⟩

/-- Claim C5 (amended): `clone.deep` propagates the frozen flag per node
provided the frozen composite has at least one enumerated child — a frozen
root with a frozen non-empty nested composite yields a frozen root and a
frozen nested field, a non-frozen nested field stays non-frozen — and the
flag is applied only when a `head` work item of a frozen source parent is
popped (the head child is the last one filled), never at other items and
never for non-frozen parents. -/
theorem claim_C5_freeze_propagation :
    (resultRootFrozen (cloneDeep 10 frozenPairHeap (.ref 0)) = some true ∧
     resultNestedFrozen (cloneDeep 10 frozenPairHeap (.ref 0)) "a" = some true) ∧
    (resultRootFrozen (cloneDeep 10 frozenMixedHeap (.ref 0)) = some true ∧
     resultNestedFrozen (cloneDeep 10 frozenMixedHeap (.ref 0)) "a" = some false) ∧
    (∀ s it rest b, s.err = none → s.stack = it :: rest →
      ¬ it.type = IType.head → b < s.heap.length →
      ((dstep s).heap[b]?).map Node.frozen = (s.heap[b]?).map Node.frozen) ∧
    (∀ s it rest b, s.err = none → s.stack = it :: rest →
      it.parent < s.heap.length → isFrozenAt s.heap it.parent = false →
      b < s.heap.length →
      ((dstep s).heap[b]?).map Node.frozen = (s.heap[b]?).map Node.frozen) := by
  refine ⟨⟨rfl, rfl⟩, ⟨rfl, rfl⟩, ?_, ?_⟩
  · intro s it rest b herr hstack hhead hb
    exact dstep_frozen_not_head herr hstack hhead b hb
  · intro s it rest b herr hstack hplt hfp hb
    exact dstep_frozen_unfrozen_parent herr hstack hplt hfp b hb

/-- A state used to witness the step-level freeze clauses: one pending
non-`head` item with a non-frozen source parent. -/
def freezeWitnessState : DState :=
  { heap := [⟨.obj [⟨"x", false, .prim (.num 1)⟩, ⟨"y", false, .prim (.num 2)⟩],
        false, none, none⟩, ⟨.obj [], false, none, none⟩],
    visited := [(0, .ref 1)],
    stack := [⟨.prim (.num 2), .prop "y", .tail, 0⟩],
    trace := [], err := none }

/-- Witness for the step-level clauses of the amended C5, at a concrete
pending `tail` item. -/
theorem claim_C5_freeze_propagation_witness :
    ((dstep freezeWitnessState).heap[1]?).map Node.frozen =
        (freezeWitnessState.heap[1]?).map Node.frozen ∧
    ((dstep freezeWitnessState).heap[0]?).map Node.frozen =
        (freezeWitnessState.heap[0]?).map Node.frozen := by
  constructor
  · exact claim_C5_freeze_propagation.2.2.1 freezeWitnessState
      ⟨.prim (.num 2), .prop "y", .tail, 0⟩ [] 1 rfl rfl (by decide) (by decide)
  · exact claim_C5_freeze_propagation.2.2.2 freezeWitnessState
      ⟨.prim (.num 2), .prop "y", .tail, 0⟩ [] 0 rfl rfl (by decide) rfl
      (by decide)

theorem createObjectClone_frozen (d : NodeData) :
    (createObjectClone d).frozen = false := by
  cases d <;> rfl

/-- Claim C10: `clone.deep` applies the frozen flag only while processing a
`head` work item, so a frozen composite with zero enumerated members clones
to a non-frozen output even though the source is frozen. -/
theorem claim_C10_empty_frozen :
    (∀ (H : Heap) (a : Nat) (nd : Node) (fuel : Nat),
      H[a]? = some nd → nd.custom = none → getItems H a = [] →
      nd.frozen = true →
      cloneDeep fuel H (.ref a) =
        some (.ok (H ++ [createObjectClone nd.data], .ref H.length)) ∧
      frozenOf (H ++ [createObjectClone nd.data]) (.ref H.length) =
        some false) ∧
    (∀ s it rest b, s.err = none → s.stack = it :: rest →
      ¬ it.type = IType.head → b < s.heap.length →
      ((dstep s).heap[b]?).map Node.frozen = (s.heap[b]?).map Node.frozen) := by
  constructor
  · intro H a nd fuel hget hc hitems _hfrozen
    have hdrain : drainWith dstep fuel (initDeep H a nd [.queried a]) =
        initDeep H a nd [.queried a] := by
      refine drain_of_done ?_ fuel
      simp [doneD, initDeep, hitems]
    constructor
    · simp only [cloneDeep, internalClone_default CloneHint.deep hget hc,
        cloneDeepState, hget, hdrain]
      simp [initDeep, hitems]
    · show ((H ++ [createObjectClone nd.data])[H.length]?).map Node.frozen =
        some false
      rw [List.getElem?_concat_length]
      simp [createObjectClone_frozen]
  · intro s it rest b herr hstack hhead hb
    exact dstep_frozen_not_head herr hstack hhead b hb

/-- `Object.freeze({})` -/
def frozenEmptyHeap : Heap := [⟨.obj [], true, none, none⟩]

/-- Witness for C10 at `Object.freeze({})`. -/
theorem claim_C10_empty_frozen_witness :
    (cloneDeep 5 frozenEmptyHeap (.ref 0) =
      some (.ok (frozenEmptyHeap ++ [createObjectClone (.obj [])], .ref 1)) ∧
     frozenOf (frozenEmptyHeap ++ [createObjectClone (.obj [])]) (.ref 1) =
       some false) ∧
    ((dstep freezeWitnessState).heap[1]?).map Node.frozen =
      (freezeWitnessState.heap[1]?).map Node.frozen := by
  constructor
  · exact claim_C10_empty_frozen.1 frozenEmptyHeap 0
      ⟨.obj [], true, none, none⟩ 5 rfl rfl rfl rfl
  · exact claim_C10_empty_frozen.2 freezeWitnessState
      ⟨.prim (.num 2), .prop "y", .tail, 0⟩ [] 1 rfl rfl (by decide) (by decide)

end PrtclSpec

namespace PrtclSpec

/-!  Claim C8: a throwing custom handler aborts the whole traversal. -/

/-- `{a: objWithThrowingHandler}` -/
def throwHeap : Heap :=
  [⟨.obj [⟨"a", false, .ref 1⟩], false, none, none⟩,
   ⟨.obj [], false, some (.thrw "boom"), none⟩]

/-- Claim C8: a custom handler that throws propagates verbatim — at the root
every clone entry point returns exactly the thrown error, and inside the
deep traversal the iteration that invokes the handler sets the exception and
the loop performs no further step — so no partial output graph is ever
returned (an `.error` result carries no heap/value). -/
theorem claim_C8_handler_throw_aborts :
    (∀ (H : Heap) (a : Nat) (nd : Node) (m : String) (fuel : Nat),
      H[a]? = some nd → nd.custom = some (.thrw m) →
      cloneDeep fuel H (.ref a) = some (.error m) ∧
      clone H (.ref a) = .error m ∧
      cloneShallow H (.ref a) = .error m) ∧
    (∀ s it rest pOut a nd m, s.err = none → s.stack = it :: rest →
      lookupV s.visited it.parent = some pOut → it.value = .ref a →
      lookupV s.visited a = none → s.heap[a]? = some nd →
      nd.custom = some (.thrw m) →
      (dstep s).err = some m ∧
      ∀ n, drainWith dstep n (dstep s) = dstep s) ∧
    cloneDeep 10 throwHeap (.ref 0) = some (.error "boom") := by
  refine ⟨?_, ?_, rfl⟩
  · intro H a nd m fuel hget hc
    refine ⟨?_, ?_, ?_⟩
    · simp [cloneDeep, internalClone_custom_thrw CloneHint.deep hget hc]
    · simp [clone, cloneOnce, internalClone_custom_thrw CloneHint.dflt hget hc]
    · simp [cloneShallow, cloneOnce,
        internalClone_custom_thrw CloneHint.shallow hget hc]
  · intro s it rest pOut a nd m herr hstack hpar hval hvis hget hc
    rw [dstep_custom_thrw herr hstack hpar hval hvis hget hc]
    exact ⟨rfl, fun n => drain_of_done (by simp [doneD]) n⟩

/-- The loop state about to pop the throwing composite. -/
def throwWitnessState : DState :=
  { heap := throwHeap ++ [⟨.obj [], false, none, none⟩],
    visited := [(0, .ref 2)],
    stack := [⟨.ref 1, .prop "a", .head, 0⟩],
    trace := [.queried 0, .defaulted 0],
    err := none }

/-- Witness for C8's quantified parts at the concrete throwing heap and the
loop state about to pop the throwing composite. -/
theorem claim_C8_handler_throw_aborts_witness :
    (cloneDeep 10 throwHeap (.ref 1) = some (.error "boom") ∧
     clone throwHeap (.ref 1) = .error "boom" ∧
     cloneShallow throwHeap (.ref 1) = .error "boom") ∧
    (dstep throwWitnessState).err = some "boom" := by
  constructor
  · exact claim_C8_handler_throw_aborts.1 throwHeap 1
      ⟨.obj [], false, some (.thrw "boom"), none⟩ "boom" 10 rfl rfl
  · exact (claim_C8_handler_throw_aborts.2.1 throwWitnessState
      ⟨.ref 1, .prop "a", .head, 0⟩ [] (.ref 2) 1
      ⟨.obj [], false, some (.thrw "boom"), none⟩ "boom"
      rfl rfl rfl rfl rfl rfl rfl).1

/-!  Claim C7: the capability registry is consulted before any default
strategy, and custom handlers short-circuit the traversal. -/

theorem dstep_trace_shape (s : DState) :
    (dstep s).trace = s.trace ∨
    (∃ a, (dstep s).trace = s.trace ++ [Ev.queried a]) ∨
    (∃ a, (dstep s).trace = s.trace ++ [Ev.queried a, Ev.invoked a]) ∨
    (∃ a, (dstep s).trace = s.trace ++ [Ev.queried a] ++ [Ev.defaulted a]) := by
  by_cases hnd : doneD s = true
  · rw [dstep_of_done hnd]; exact Or.inl rfl
  rcases dstep_branches s (by simpa using hnd) with
    ⟨it, rest, hstack, hb | hb | hb | hb | hb | hb | hb | hb⟩
  · rw [hb.2]; exact Or.inl rfl
  · obtain ⟨pOut, _, _, he⟩ := hb; rw [he]; exact Or.inl rfl
  · obtain ⟨pOut, _, _, he⟩ := hb
    rw [he, finishItem_trace]; exact Or.inl rfl
  · obtain ⟨pOut, a, w, _, _, _, he⟩ := hb
    rw [he, finishItem_trace]; exact Or.inl rfl
  · obtain ⟨pOut, a, _, _, _, _, he⟩ := hb
    rw [he]; exact Or.inr (Or.inl ⟨a, rfl⟩)
  · obtain ⟨pOut, a, nd, w, _, _, _, _, _, he⟩ := hb
    rw [he, finishItem_trace]; exact Or.inr (Or.inr (Or.inl ⟨a, rfl⟩))
  · obtain ⟨pOut, a, nd, m, _, _, _, _, _, he⟩ := hb
    rw [he]; exact Or.inr (Or.inr (Or.inl ⟨a, rfl⟩))
  · obtain ⟨pOut, a, nd, _, _, _, _, _, he⟩ := hb
    rw [he, finishItem_trace]; exact Or.inr (Or.inr (Or.inr ⟨a, rfl⟩))

/-- The defaulted-after-queried trace discipline, preserved by every step. -/
def TraceOrd (s : DState) : Prop :=
  ∀ b, Ev.defaulted b ∈ s.trace →
    [Ev.queried b, Ev.defaulted b].Sublist s.trace

theorem dstep_TraceOrd {s : DState} (h : TraceOrd s) : TraceOrd (dstep s) := by
  intro b hmem
  rcases dstep_trace_shape s with ht | ⟨a, ht⟩ | ⟨a, ht⟩ | ⟨a, ht⟩ <;> rw [ht] at hmem ⊢
  · exact h b hmem
  · rcases List.mem_append.1 hmem with hm | hm
    · exact (h b hm).trans (List.sublist_append_left _ _)
    · simp at hm
  · rcases List.mem_append.1 hmem with hm | hm
    · exact (h b hm).trans (List.sublist_append_left _ _)
    · simp at hm
  · rcases List.mem_append.1 hmem with hm | hm
    · rcases List.mem_append.1 hm with hm2 | hm2
      · exact (h b hm2).trans
          ((List.sublist_append_left _ _).trans (List.sublist_append_left _ _))
      · simp at hm2
    · have h2 := List.mem_singleton.1 hm
      have hba : b = a := by injection h2
      subst hba
      rw [List.append_assoc]
      exact List.sublist_append_right _ _

/-- Invoked-at-most-once discipline: the count of handler invocations per
address never exceeds one, because an invocation immediately registers the
address in the visited map and invocations only happen at unvisited
addresses. -/
structure CInv (s : DState) : Prop where
  inv_count : ∀ b, s.trace.count (Ev.invoked b) ≤ 1
  inv_vis : ∀ b, s.err = none → Ev.invoked b ∈ s.trace →
    ¬ lookupV s.visited b = none

theorem lookupV_append_ne_none {vs ws : List (Nat × Val)} {b : Nat}
    (h : ¬ lookupV vs b = none) : ¬ lookupV (vs ++ ws) b = none := by
  rw [lookupV_append]
  cases hv : lookupV vs b with
  | none => exact absurd hv h
  | some w => simp

theorem count_invoked_pair (a b : Nat) :
    List.count (Ev.invoked b) [Ev.queried a, Ev.invoked a] =
      if b = a then 1 else 0 := by
  by_cases hba : b = a
  · subst hba; simp [List.count_cons]
  · simp only [List.count_cons, List.count_nil, if_neg hba]
    have h1 : (Ev.queried a == Ev.invoked b) = false := by simp
    have h2 : (Ev.invoked a == Ev.invoked b) = false := by
      simp only [beq_eq_false_iff_ne, ne_eq, Ev.invoked.injEq]
      exact fun h => hba h.symm
    rw [h1, h2]
    simp

theorem dstep_CInv {s : DState} (h : CInv s) : CInv (dstep s) := by
  by_cases hnd : doneD s = true
  · rw [dstep_of_done hnd]; exact h
  rcases dstep_branches s (by simpa using hnd) with
    ⟨it, rest, hstack, hb | hb | hb | hb | hb | hb | hb | hb⟩
  · rw [hb.2]
    exact ⟨h.inv_count, fun b he => by cases he⟩
  · obtain ⟨pOut, _, _, he⟩ := hb
    rw [he]
    exact ⟨h.inv_count, fun b he2 => by cases he2⟩
  · obtain ⟨pOut, _, _, he⟩ := hb
    rw [he]
    exact ⟨h.inv_count, fun b he2 hm => h.inv_vis b he2 hm⟩
  · obtain ⟨pOut, a, w, _, _, _, he⟩ := hb
    rw [he]
    exact ⟨h.inv_count, fun b he2 hm => h.inv_vis b he2 hm⟩
  · obtain ⟨pOut, a, _, _, _, _, he⟩ := hb
    rw [he]
    refine ⟨fun b => ?_, fun b he2 => by cases he2⟩
    rw [List.count_append]
    have hz : List.count (Ev.invoked b) [Ev.queried a] = 0 := by simp
    rw [hz]
    simpa using h.inv_count b
  · obtain ⟨pOut, a, nd, w, hpar, hval, hvis, hget, hc, he⟩ := hb
    have herr : s.err = none := (doneD_false_iff.1 (by simpa using hnd)).1
    rw [he]
    refine ⟨fun b => ?_, fun b _ hm => ?_⟩
    · rw [finishItem_trace]
      simp only
      rw [List.count_append, count_invoked_pair]
      by_cases hba : b = a
      · subst hba
        have hnot : Ev.invoked b ∉ s.trace := fun hm =>
          (h.inv_vis b herr hm) hvis
        rw [List.count_eq_zero.2 hnot, if_pos rfl]
      · rw [if_neg hba]
        simpa using h.inv_count b
    · rw [finishItem_trace] at hm
      rw [finishItem_visited]
      simp only at hm ⊢
      rcases List.mem_append.1 hm with hm2 | hm2
      · exact lookupV_append_ne_none (h.inv_vis b herr hm2)
      · have hba : b = a := by
          rcases List.mem_cons.1 hm2 with h2 | h2
          · cases h2
          · have h3 := List.mem_singleton.1 h2
            injection h3
        subst hba
        rw [lookupV_append_single_self hvis]
        simp
  · obtain ⟨pOut, a, nd, m, hpar, hval, hvis, hget, hc, he⟩ := hb
    have herr : s.err = none := (doneD_false_iff.1 (by simpa using hnd)).1
    rw [he]
    refine ⟨fun b => ?_, fun b he2 => by cases he2⟩
    rw [List.count_append, count_invoked_pair]
    by_cases hba : b = a
    · subst hba
      have hnot : Ev.invoked b ∉ s.trace := fun hm =>
        (h.inv_vis b herr hm) hvis
      rw [List.count_eq_zero.2 hnot, if_pos rfl]
    · rw [if_neg hba]
      simpa using h.inv_count b
  · obtain ⟨pOut, a, nd, hpar, hval, hvis, hget, hc, he⟩ := hb
    have herr : s.err = none := (doneD_false_iff.1 (by simpa using hnd)).1
    rw [he]
    refine ⟨fun b => ?_, fun b _ hm => ?_⟩
    · rw [finishItem_trace]
      simp only
      rw [List.count_append, List.count_append]
      have h1 : List.count (Ev.invoked b) [Ev.queried a] = 0 := by simp
      have h2 : List.count (Ev.invoked b) [Ev.defaulted a] = 0 := by simp
      rw [h1, h2]
      simpa using h.inv_count b
    · rw [finishItem_trace] at hm
      rw [finishItem_visited]
      simp only at hm ⊢
      rcases List.mem_append.1 hm with hm2 | hm2
      · rcases List.mem_append.1 hm2 with hm3 | hm3
        · exact lookupV_append_ne_none (h.inv_vis b herr hm3)
        · simp at hm3
      · simp at hm2

end PrtclSpec

namespace PrtclSpec

theorem dstep_trace_extend (s : DState) :
    ∃ ext, (dstep s).trace = s.trace ++ ext := by
  rcases dstep_trace_shape s with ht | ⟨a, ht⟩ | ⟨a, ht⟩ | ⟨a, ht⟩
  · exact ⟨[], by rw [ht, List.append_nil]⟩
  · exact ⟨_, ht⟩
  · exact ⟨_, ht⟩
  · exact ⟨_, by rw [ht, List.append_assoc]⟩

theorem drain_trace_extend (n : Nat) (s : DState) :
    ∃ ext, (drainWith dstep n s).trace = s.trace ++ ext := by
  induction n generalizing s with
  | zero => exact ⟨[], by rw [List.append_nil]; rfl⟩
  | succ n ih =>
    by_cases hd : doneD s = true
    · rw [drain_of_done hd]; exact ⟨[], by rw [List.append_nil]⟩
    · rw [drain_succ_of_not_done (by simpa using hd)]
      obtain ⟨e1, he1⟩ := dstep_trace_extend s
      obtain ⟨e2, he2⟩ := ih (dstep s)
      exact ⟨e1 ++ e2, by rw [he2, he1, List.append_assoc]⟩

/-- `{a: objectWithCustomHandler}` where the handler returns `'custom'` and
the handled object has a member of its own that must not be traversed. -/
def customHeap : Heap :=
  [⟨.obj [⟨"a", false, .ref 1⟩], false, none, none⟩,
   ⟨.obj [⟨"secret", false, .ref 2⟩], false,
     some (.ret (.prim (.str "custom"))), none⟩,
   ⟨.obj [], false, none, none⟩]

/-- Claim C7: every run consults the registry before any default strategy —
each `defaulted` event is preceded by a `queried` event for the same address
and the run opens with the root's `queried`/`defaulted` pair — a handler is
invoked at most once per address, and the custom branch invokes the handler,
assigns its result verbatim, pushes none of the value's own members and
builds no shell; concretely, the handled child is invoked exactly once, its
member is never visited, and its result is embedded as returned. -/
theorem claim_C7_capability_first :
    (∀ fuel H a s, cloneDeepState fuel H a = some s →
      (∀ b, Ev.defaulted b ∈ s.trace →
        [Ev.queried b, Ev.defaulted b].Sublist s.trace) ∧
      (∀ b, s.trace.count (Ev.invoked b) ≤ 1) ∧
      (∃ t, s.trace = [Ev.queried a, Ev.defaulted a] ++ t)) ∧
    (∀ s it rest pOut a nd w, s.err = none → s.stack = it :: rest →
      lookupV s.visited it.parent = some pOut → it.value = .ref a →
      lookupV s.visited a = none → s.heap[a]? = some nd →
      nd.custom = some (.ret w) →
      dstep s = finishItem
        { s with trace := s.trace ++ [.queried a, .invoked a],
                 visited := s.visited ++ [(a, w)] } rest pOut it w) ∧
    (∃ s, cloneDeepState 10 customHeap 0 = some s ∧
      s.trace = [.queried 0, .defaulted 0, .queried 1, .invoked 1] ∧
      lookupV s.visited 2 = none) ∧
    (∃ H2 r, cloneDeep 10 customHeap (.ref 0) = some (.ok (H2, r)) ∧
      objField H2 r "a" = some (.prim (.str "custom"))) := by
  refine ⟨?_, ?_, ⟨_, rfl, rfl, rfl⟩, ⟨_, _, rfl, rfl⟩⟩
  · intro fuel H a s hs
    unfold cloneDeepState at hs
    cases hget : H[a]? with
    | none =>
      rw [internalClone_dangling CloneHint.deep hget, hget] at hs
      cases hs
    | some nd =>
      cases hc : nd.custom with
      | some cb =>
        cases cb with
        | ret w => rw [internalClone_custom_ret CloneHint.deep hget hc] at hs; cases hs
        | thrw m => rw [internalClone_custom_thrw CloneHint.deep hget hc] at hs; cases hs
      | none =>
        rw [internalClone_default CloneHint.deep hget hc, hget] at hs
        have hs2 : drainWith dstep fuel (initDeep H a nd [.queried a]) = s :=
          Option.some_inj.1 hs
        have hinit_trace : (initDeep H a nd [.queried a]).trace =
            [Ev.queried a, Ev.defaulted a] := rfl
        refine ⟨?_, ?_, ?_⟩
        · rw [← hs2]
          refine drain_inv (P := TraceOrd) (fun s2 h => dstep_TraceOrd h) fuel _ ?_
          intro b hmem
          rw [hinit_trace] at hmem ⊢
          have hba : b = a := by
            rcases List.mem_cons.1 hmem with h2 | h2
            · cases h2
            · have h3 := List.mem_singleton.1 h2
              injection h3
          subst hba
          exact List.Sublist.refl _
        · intro b
          have hC : CInv s := by
            rw [← hs2]
            refine drain_inv (P := CInv) (fun s2 h => dstep_CInv h) fuel _ ?_
            refine ⟨fun b2 => ?_, fun b2 _ hm => ?_⟩
            · rw [hinit_trace]
              simp [List.count_cons]
            · rw [hinit_trace] at hm
              simp at hm
          exact hC.inv_count b
        · obtain ⟨ext, hext⟩ := drain_trace_extend fuel (initDeep H a nd [.queried a])
          rw [hs2, hinit_trace] at hext
          exact ⟨ext, hext⟩
  · intro s it rest pOut a nd w herr hstack hpar hval hvis hget hc
    exact dstep_custom_ret herr hstack hpar hval hvis hget hc

/-- The loop state about to pop the custom-handled composite. -/
def customPreState : DState :=
  { heap := customHeap ++ [⟨.obj [], false, none, none⟩],
    visited := [(0, .ref 3)],
    stack := [⟨.ref 1, .prop "a", .head, 0⟩],
    trace := [.queried 0, .defaulted 0],
    err := none }

/-- Witness for the quantified parts of C7, at the concrete custom heap and
the state about to pop the custom-handled child. -/
theorem claim_C7_capability_first_witness :
    (∃ s, cloneDeepState 10 customHeap 0 = some s ∧
      s.trace.count (Ev.invoked 1) ≤ 1 ∧
      (∃ t, s.trace = [Ev.queried 0, Ev.defaulted 0] ++ t)) ∧
    dstep customPreState = finishItem
      { customPreState with
          trace := customPreState.trace ++ [.queried 1, .invoked 1],
          visited := customPreState.visited ++ [(1, .prim (.str "custom"))] }
      [] (.ref 3) ⟨.ref 1, .prop "a", .head, 0⟩ (.prim (.str "custom")) := by
  constructor
  · exact ⟨_, rfl, (claim_C7_capability_first.1 10 customHeap 0 _ rfl).2.1 1,
      (claim_C7_capability_first.1 10 customHeap 0 _ rfl).2.2⟩
  · exact claim_C7_capability_first.2.1 customPreState
      ⟨.ref 1, .prop "a", .head, 0⟩ [] (.ref 3) 1
      ⟨.obj [⟨"secret", false, .ref 2⟩], false,
        some (.ret (.prim (.str "custom"))), none⟩
      (.prim (.str "custom")) rfl rfl rfl rfl rfl rfl rfl

end PrtclSpec

namespace PrtclSpec

/-!  Claim C4: primitives and `null` at the clone entry points. -/

/-- Claim C4 probes (code bug): `isObject(null)` is true
(`typeof null === 'object'`), so `clone(null)` is routed into
`internalClone`, where `isNativeError(null)` evaluates `null.constructor`
and throws a `TypeError` — in all three entry points — contradicting both
the claim and the repository's own test
(`clone.test.ts`: `assertEquals(null, clone(null))`).  Every other primitive
(and functions) is returned verbatim as the claim states. -/
theorem claim_C4_null_throws :
    (∀ H : Heap, clone H (.prim .null) = .error nullTypeError ∧
      cloneShallow H (.prim .null) = .error nullTypeError ∧
      cloneDeep 1 H (.prim .null) = some (.error nullTypeError)) ∧
    (∀ (H : Heap) (p : Prim), ¬ p = Prim.null →
      clone H (.prim p) = .ok (H, .prim p) ∧
      cloneShallow H (.prim p) = .ok (H, .prim p) ∧
      cloneDeep 1 H (.prim p) = some (.ok (H, .prim p))) ∧
    (∀ (H : Heap) (i : Nat), clone H (.func i) = .ok (H, .func i)) := by
  refine ⟨fun H => ⟨rfl, rfl, rfl⟩, ?_, fun H i => rfl⟩
  intro H p hp
  cases p with
  | null => exact absurd rfl hp
  | undef => exact ⟨rfl, rfl, rfl⟩
  | num n => exact ⟨rfl, rfl, rfl⟩
  | str s => exact ⟨rfl, rfl, rfl⟩
  | bool b => exact ⟨rfl, rfl, rfl⟩
  | sym i => exact ⟨rfl, rfl, rfl⟩
  | bigint n => exact ⟨rfl, rfl, rfl⟩

/-- Witness for C4 at `null`, the number `3` and a function value on the
empty heap. -/
theorem claim_C4_null_throws_witness :
    clone [] (.prim .null) = .error nullTypeError ∧
    clone [] (.prim (.num 3)) = .ok ([], .prim (.num 3)) ∧
    clone [] (.func 0) = .ok ([], .func 0) :=
  ⟨(claim_C4_null_throws.1 []).1,
   (claim_C4_null_throws.2.1 [] (.num 3) (by decide)).1,
   claim_C4_null_throws.2.2 [] 0⟩

end PrtclSpec

namespace PrtclSpec

/-!  Branch analysis of the prtcl copy loops (`pstep`). -/

theorem pstep_of_done {ro : Bool} {s : DState} (h : doneD s = true) :
    pstep ro s = s := by
  unfold pstep; rw [if_pos h]

theorem pstep_noparent {ro : Bool} {s : DState} {it : Item} {rest : List Item}
    (herr : s.err = none) (hstack : s.stack = it :: rest)
    (hpar : lookupV s.visited it.parent = none) :
    pstep ro s = { s with err := some "copyParent not defined" } := by
  unfold pstep
  rw [if_neg (by simp [doneD, herr, hstack]), hstack]
  simp only [hpar]

theorem pstep_verbatim {ro : Bool} {s : DState} {it : Item} {rest : List Item}
    {pOut : Val}
    (herr : s.err = none) (hstack : s.stack = it :: rest)
    (hpar : lookupV s.visited it.parent = some pOut)
    (hval : ∀ a, ¬ it.value = .ref a) :
    pstep ro s = finishCopyItem ro s rest pOut it it.value := by
  unfold pstep
  rw [if_neg (by simp [doneD, herr, hstack]), hstack]
  simp only [hpar]

theorem pstep_revisit {ro : Bool} {s : DState} {it : Item} {rest : List Item}
    {pOut : Val} {a : Nat} {w : Val}
    (herr : s.err = none) (hstack : s.stack = it :: rest)
    (hpar : lookupV s.visited it.parent = some pOut)
    (hval : it.value = .ref a) (hvis : lookupV s.visited a = some w) :
    pstep ro s = finishCopyItem ro s rest pOut it w := by
  unfold pstep
  rw [if_neg (by simp [doneD, herr, hstack]), hstack]
  simp only [hpar, hval, hvis]

theorem pstep_dangling {ro : Bool} {s : DState} {it : Item} {rest : List Item}
    {pOut : Val} {a : Nat}
    (herr : s.err = none) (hstack : s.stack = it :: rest)
    (hpar : lookupV s.visited it.parent = some pOut)
    (hval : it.value = .ref a) (hvis : lookupV s.visited a = none)
    (hget : s.heap[a]? = none) :
    pstep ro s = { s with err := some "dangling reference" } := by
  unfold pstep
  rw [if_neg (by simp [doneD, herr, hstack]), hstack]
  simp only [hpar, hval, hvis, hget]

theorem pstep_fresh {ro : Bool} {s : DState} {it : Item} {rest : List Item}
    {pOut : Val} {a : Nat} {nd : Node}
    (herr : s.err = none) (hstack : s.stack = it :: rest)
    (hpar : lookupV s.visited it.parent = some pOut)
    (hval : it.value = .ref a) (hvis : lookupV s.visited a = none)
    (hget : s.heap[a]? = some nd) :
    pstep ro s = finishCopyItem ro
      { s with heap := s.heap ++ [createCopyOutPut nd.data],
               visited := s.visited ++ [(a, .ref s.heap.length)] }
      ((getCopyItemsStack s.heap a).reverse ++ rest) pOut it
      (.ref s.heap.length) := by
  unfold pstep
  rw [if_neg (by simp [doneD, herr, hstack]), hstack]
  simp only [hpar, hval, hvis, hget]

/-- Exhaustive analysis of one non-terminal prtcl copy-loop iteration. -/
theorem pstep_branches (ro : Bool) (s : DState) (hnd : doneD s = false) :
    ∃ it rest, s.stack = it :: rest ∧
    ((∃ m, pstep ro s = { s with err := some m }) ∨
     (∃ pOut, lookupV s.visited it.parent = some pOut ∧
        pstep ro s = finishCopyItem ro s rest pOut it it.value) ∨
     (∃ pOut a w, lookupV s.visited it.parent = some pOut ∧ it.value = .ref a ∧
        lookupV s.visited a = some w ∧
        pstep ro s = finishCopyItem ro s rest pOut it w) ∨
     (∃ pOut a nd, lookupV s.visited it.parent = some pOut ∧ it.value = .ref a ∧
        lookupV s.visited a = none ∧ s.heap[a]? = some nd ∧
        pstep ro s = finishCopyItem ro
          { s with heap := s.heap ++ [createCopyOutPut nd.data],
                   visited := s.visited ++ [(a, .ref s.heap.length)] }
          ((getCopyItemsStack s.heap a).reverse ++ rest) pOut it
          (.ref s.heap.length))) := by
  obtain ⟨herr, hne⟩ := doneD_false_iff.1 hnd
  obtain ⟨it, rest, hstack⟩ : ∃ it rest, s.stack = it :: rest := by
    cases hs : s.stack with
    | nil => exact absurd hs hne
    | cons it rest => exact ⟨it, rest, rfl⟩
  refine ⟨it, rest, hstack, ?_⟩
  cases hpar : lookupV s.visited it.parent with
  | none => exact Or.inl ⟨_, pstep_noparent herr hstack hpar⟩
  | some pOut =>
    cases hval : it.value with
    | ref a =>
      cases hvis : lookupV s.visited a with
      | some w =>
        exact Or.inr <| Or.inr <| Or.inl
          ⟨pOut, a, w, rfl, rfl, hvis, pstep_revisit herr hstack hpar hval hvis⟩
      | none =>
        cases hget : s.heap[a]? with
        | none =>
          exact Or.inl ⟨_, pstep_dangling herr hstack hpar hval hvis hget⟩
        | some nd =>
          exact Or.inr <| Or.inr <| Or.inr
            ⟨pOut, a, nd, rfl, rfl, hvis, hget,
              pstep_fresh herr hstack hpar hval hvis hget⟩
    | func i =>
      refine Or.inr <| Or.inl ⟨pOut, rfl, ?_⟩
      rw [← hval]
      exact pstep_verbatim herr hstack hpar (by rw [hval]; intro a h; cases h)
    | prim p =>
      refine Or.inr <| Or.inl ⟨pOut, rfl, ?_⟩
      rw [← hval]
      exact pstep_verbatim herr hstack hpar (by rw [hval]; intro a h; cases h)

theorem finishCopyItem_heap_length (ro : Bool) (s : DState) (ns : List Item)
    (pOut : Val) (it : Item) (w : Val) :
    (finishCopyItem ro s ns pOut it w).heap.length = s.heap.length := by
  simp only [finishCopyItem]
  by_cases h : ro ∧ it.type = IType.head
  · rw [if_pos h, length_freezeV, length_setItemV]
  · rw [if_neg h, length_setItemV]

/-- `defaultMutableClone` never freezes: with `ro = false` the per-item
freeze is skipped and only `setItem` runs. -/
theorem frozen_finishCopyItem_mut (s : DState) (ns : List Item) (pOut : Val)
    (it : Item) (w : Val) (b : Nat) :
    ((finishCopyItem false s ns pOut it w).heap[b]?).map Node.frozen =
      (s.heap[b]?).map Node.frozen := by
  simp only [finishCopyItem]
  rw [if_neg (by simp)]
  exact frozen_setItemV _ _ _ _ _

theorem createCopyOutPut_frozen (d : NodeData) :
    (createCopyOutPut d).frozen = false := by
  cases d <;> rfl

/-- All nodes at or above `N` are non-frozen. -/
def heapFrozenFrom (N : Nat) (H : Heap) : Prop :=
  ∀ p nd, N ≤ p → H[p]? = some nd → nd.frozen = false

theorem heapFrozenFrom_of_map_eq {N : Nat} {H H2 : Heap}
    (hmap : ∀ p : Nat, (H2[p]?).map Node.frozen = (H[p]?).map Node.frozen)
    (h : heapFrozenFrom N H) : heapFrozenFrom N H2 := by
  intro p nd hp hget
  have := hmap p
  rw [hget] at this
  cases hget2 : H[p]? with
  | none => rw [hget2] at this; cases this
  | some nd2 =>
    rw [hget2] at this
    have hfr : nd.frozen = nd2.frozen := by
      simpa using this
    rw [hfr]
    exact h p nd2 hp hget2

theorem heapFrozenFrom_append_shell {N : Nat} {H : Heap} {d : NodeData}
    (h : heapFrozenFrom N H) :
    heapFrozenFrom N (H ++ [createCopyOutPut d]) := by
  intro p nd hp hget
  rcases Nat.lt_trichotomy p H.length with hlt | heq | hgt
  · rw [List.getElem?_append_left hlt] at hget
    exact h p nd hp hget
  · subst heq
    rw [List.getElem?_concat_length] at hget
    rw [← Option.some_inj.1 hget]
    exact createCopyOutPut_frozen d
  · rw [List.getElem?_append] at hget
    rw [if_neg (by omega)] at hget
    rw [List.getElem?_eq_none (by simp; omega)] at hget
    cases hget

/-- One mutable-clone iteration preserves "everything allocated at or above
`N` is non-frozen". -/
theorem pstepMut_frozenFrom {N : Nat} {s : DState}
    (h : heapFrozenFrom N s.heap) :
    heapFrozenFrom N (pstep false s).heap := by
  by_cases hnd : doneD s = true
  · rw [pstep_of_done hnd]; exact h
  rcases pstep_branches false s (by simpa using hnd) with
    ⟨it, rest, hstack, hb | hb | hb | hb⟩
  · obtain ⟨m, he⟩ := hb; rw [he]; exact h
  · obtain ⟨pOut, _, he⟩ := hb
    rw [he]
    exact heapFrozenFrom_of_map_eq (frozen_finishCopyItem_mut _ _ _ _ _) h
  · obtain ⟨pOut, a, w, _, _, _, he⟩ := hb
    rw [he]
    exact heapFrozenFrom_of_map_eq (frozen_finishCopyItem_mut _ _ _ _ _) h
  · obtain ⟨pOut, a, nd, _, _, _, _, he⟩ := hb
    rw [he]
    exact heapFrozenFrom_of_map_eq (frozen_finishCopyItem_mut _ _ _ _ _)
      (heapFrozenFrom_append_shell h)

/-- The live heap never shrinks under a prtcl copy iteration. -/
theorem pstep_heap_length_mono (ro : Bool) (s : DState) :
    s.heap.length ≤ (pstep ro s).heap.length := by
  by_cases hnd : doneD s = true
  · rw [pstep_of_done hnd]
  rcases pstep_branches ro s (by simpa using hnd) with
    ⟨it, rest, hstack, hb | hb | hb | hb⟩
  · obtain ⟨m, he⟩ := hb; rw [he]
  · obtain ⟨pOut, _, he⟩ := hb
    rw [he, finishCopyItem_heap_length]
  · obtain ⟨pOut, a, w, _, _, _, he⟩ := hb
    rw [he, finishCopyItem_heap_length]
  · obtain ⟨pOut, a, nd, _, _, _, _, he⟩ := hb
    rw [he, finishCopyItem_heap_length]
    simp

theorem drain_heap_length_mono (ro : Bool) (n : Nat) (s : DState) :
    s.heap.length ≤ (drainWith (pstep ro) n s).heap.length := by
  induction n generalizing s with
  | zero => exact Nat.le_refl _
  | succ n ih =>
    by_cases hd : doneD s = true
    · rw [drain_of_done hd]
    · rw [drain_succ_of_not_done (by simpa using hd)]
      exact (pstep_heap_length_mono ro s).trans (ih _)

end PrtclSpec

namespace PrtclSpec

theorem heapFrozenFrom_self (H : Heap) : heapFrozenFrom H.length H := by
  intro p nd hp hget
  rw [List.getElem?_eq_none hp] at hget
  cases hget

/-- Structure of a successful `defaultMutableClone` deep run: the root is
the first allocation, and every allocated node — the root included — is
non-frozen. -/
theorem mutableCloneDeep_ok {fuel : Nat} {H : Heap} {a : Nat} {H2 : Heap}
    {r : Val} (h : mutableCloneDeep fuel H a = some (.ok (H2, r))) :
    r = .ref H.length ∧ H.length < H2.length ∧ heapFrozenFrom H.length H2 := by
  unfold mutableCloneDeep at h
  cases hget : H[a]? with
  | none => rw [hget] at h; simp at h
  | some nd =>
    rw [hget] at h
    simp only at h
    cases herr : (drainWith (pstep false) fuel (initCopy H a nd)).err with
    | some m => rw [herr] at h; simp at h
    | none =>
      rw [herr] at h
      by_cases hemp : (drainWith (pstep false) fuel (initCopy H a nd)).stack.isEmpty
      · rw [if_pos hemp] at h
        have h2 := Option.some_inj.1 h
        have hH2 : (drainWith (pstep false) fuel (initCopy H a nd)).heap = H2 := by
          cases h2; rfl
        have hr : r = .ref H.length := by
          cases h2; rfl
        refine ⟨hr, ?_, ?_⟩
        · rw [← hH2]
          have hmono := drain_heap_length_mono false fuel (initCopy H a nd)
          have hinit : (initCopy H a nd).heap.length = H.length + 1 := by
            simp [initCopy]
          rw [hinit] at hmono
          omega
        · rw [← hH2]
          refine drain_inv (P := fun s2 => heapFrozenFrom H.length s2.heap)
            (fun s2 hI => pstepMut_frozenFrom hI) fuel _ ?_
          simp only [initCopy]
          exact heapFrozenFrom_append_shell (heapFrozenFrom_self H)
      · rw [if_neg hemp] at h; cases h

theorem frozenOf_freezeV_self {H : Heap} {p : Nat} (hp : p < H.length) :
    frozenOf (freezeV H (.ref p)) (.ref p) = some true := by
  have hg : H[p]? = some H[p] := List.getElem?_eq_getElem hp
  show ((freezeV H (.ref p))[p]?).map Node.frozen = some true
  simp only [freezeV, hg]
  rw [List.getElem?_set, if_pos rfl, if_pos hp]
  rfl

/-- Structure of a successful `defaultReadonlyClone` deep run: the root is
the first allocation and `Object.freeze(result)` leaves it frozen. -/
theorem readonlyCloneDeep_ok {fuel : Nat} {H : Heap} {a : Nat} {H2 : Heap}
    {r : Val} (h : readonlyCloneDeep fuel H a = some (.ok (H2, r))) :
    r = .ref H.length ∧ frozenOf H2 r = some true := by
  unfold readonlyCloneDeep at h
  cases hget : H[a]? with
  | none => rw [hget] at h; simp at h
  | some nd =>
    rw [hget] at h
    simp only at h
    cases herr : (drainWith (pstep true) fuel (initCopy H a nd)).err with
    | some m => rw [herr] at h; simp at h
    | none =>
      rw [herr] at h
      by_cases hemp : (drainWith (pstep true) fuel (initCopy H a nd)).stack.isEmpty
      · rw [if_pos hemp] at h
        have h2 := Option.some_inj.1 h
        have hlen : H.length <
            (drainWith (pstep true) fuel (initCopy H a nd)).heap.length := by
          have hmono := drain_heap_length_mono true fuel (initCopy H a nd)
          have hinit : (initCopy H a nd).heap.length = H.length + 1 := by
            simp [initCopy]
          rw [hinit] at hmono
          omega
        have hr : r = .ref H.length := by cases h2; rfl
        have hH2 : H2 = freezeV (drainWith (pstep true) fuel
            (initCopy H a nd)).heap (.ref H.length) := by cases h2; rfl
        refine ⟨hr, ?_⟩
        rw [hr, hH2]
        exact frozenOf_freezeV_self hlen
      · rw [if_neg hemp] at h; cases h

end PrtclSpec

namespace PrtclSpec

theorem frozenOf_concat (H : Heap) (nd : Node) :
    frozenOf (H ++ [nd]) (.ref H.length) = some nd.frozen := by
  show ((H ++ [nd])[H.length]?).map Node.frozen = some nd.frozen
  rw [List.getElem?_concat_length]
  rfl

/-- `{a: Object.freeze({b: 1})}` — non-frozen root, frozen nested child. -/
def mutCxHeap : Heap :=
  [⟨.obj [⟨"a", false, .ref 1⟩], false, none, none⟩,
   ⟨.obj [⟨"b", false, .prim (.num 1)⟩], true, none, none⟩]

/-- `{a: {b: 1}}` — nothing frozen. -/
def roCxHeap : Heap :=
  [⟨.obj [⟨"a", false, .ref 1⟩], false, none, none⟩,
   ⟨.obj [⟨"b", false, .prim (.num 1)⟩], false, none, none⟩]

/-- Counterexample to claim C6 as stated: the nested source of `mutCxHeap`
is frozen, yet `defaultMutableClone`'s deep traversal — which contains no
freeze call at all — leaves the nested output non-frozen; and
`defaultReadonlyClone` freezes the nested output of `roCxHeap` although its
source is not frozen.  Nested frozen state does not follow the clone
propagation rule in either operation. -/
theorem claim_C6_counterexample :
    (frozenOf mutCxHeap (.ref 1) = some true ∧
     resultNestedFrozen (mutableCloneDeep 10 mutCxHeap 0) "a" = some false) ∧
    (frozenOf roCxHeap (.ref 1) = some false ∧
     resultNestedFrozen (readonlyCloneDeep 10 roCxHeap 0) "a" = some true) :=
  ⟨⟨rfl, rfl⟩, ⟨rfl, rfl⟩⟩

/-- Claim C6 (amended): `defaultMutableClone` (deep) always returns a
non-frozen root — indeed every node it allocates, nested outputs included,
is non-frozen regardless of the source's frozen state — and
`defaultReadonlyClone` (deep) always returns a frozen root regardless of
the source's frozen state; its nested outputs with at least one enumerated
member are frozen unconditionally (not according to the source, as the
concrete `roCxHeap` run shows).  The non-deep hints behave the same on the
root. -/
theorem claim_C6_mutable_readonly :
    (∀ fuel H a H2 r, mutableCloneDeep fuel H a = some (.ok (H2, r)) →
      frozenOf H2 r = some false ∧
      (∀ p nd, H.length ≤ p → H2[p]? = some nd → nd.frozen = false)) ∧
    (∀ fuel H a H2 r, readonlyCloneDeep fuel H a = some (.ok (H2, r)) →
      frozenOf H2 r = some true) ∧
    (∀ H a nd, H[a]? = some nd →
      (∃ H2 r, mutableCloneShallow H a = .ok (H2, r) ∧
        frozenOf H2 r = some false) ∧
      (∃ H2 r, readonlyCloneShallow H a = .ok (H2, r) ∧
        frozenOf H2 r = some true)) ∧
    (resultNestedFrozen (readonlyCloneDeep 10 roCxHeap 0) "a" = some true ∧
     resultNestedFrozen (mutableCloneDeep 10 mutCxHeap 0) "a" = some false) := by
  refine ⟨?_, ?_, ?_, rfl, rfl⟩
  · intro fuel H a H2 r h
    obtain ⟨hr, hlen, hfr⟩ := mutableCloneDeep_ok h
    constructor
    · subst hr
      have hg : H2[H.length]? = some H2[H.length] :=
        List.getElem?_eq_getElem hlen
      show (H2[H.length]?).map Node.frozen = some false
      rw [hg]
      have hfz := hfr H.length H2[H.length] (Nat.le_refl _) hg
      simp [hfz]
    · exact hfr
  · intro fuel H a H2 r h
    exact (readonlyCloneDeep_ok h).2
  · intro H a nd hget
    constructor
    · cases hd : nd.data with
      | obj fs =>
        refine ⟨H ++ [⟨.obj (spreadFields fs), false, nd.custom, nd.toJSONm⟩],
          .ref H.length, by simp [mutableCloneShallow, hget, hd], ?_⟩
        rw [frozenOf_concat]
      | arr cs =>
        refine ⟨H ++ [⟨.arr cs, false, none, none⟩], .ref H.length,
          by simp [mutableCloneShallow, hget, hd], ?_⟩
        rw [frozenOf_concat]
      | mapN es =>
        refine ⟨H ++ [⟨.obj [], false, none, none⟩], .ref H.length,
          by simp [mutableCloneShallow, hget, hd], ?_⟩
        rw [frozenOf_concat]
      | setN xs =>
        refine ⟨H ++ [⟨.obj [], false, none, none⟩], .ref H.length,
          by simp [mutableCloneShallow, hget, hd], ?_⟩
        rw [frozenOf_concat]
    · cases hd : nd.data with
      | obj fs =>
        refine ⟨H ++ [⟨.obj (spreadFields fs), true, nd.custom, nd.toJSONm⟩],
          .ref H.length, by simp [readonlyCloneShallow, hget, hd], ?_⟩
        rw [frozenOf_concat]
      | arr cs =>
        refine ⟨H ++ [⟨.arr cs, true, none, none⟩], .ref H.length,
          by simp [readonlyCloneShallow, hget, hd], ?_⟩
        rw [frozenOf_concat]
      | mapN es =>
        refine ⟨H ++ [⟨.obj [], true, none, none⟩], .ref H.length,
          by simp [readonlyCloneShallow, hget, hd], ?_⟩
        rw [frozenOf_concat]
      | setN xs =>
        refine ⟨H ++ [⟨.obj [], true, none, none⟩], .ref H.length,
          by simp [readonlyCloneShallow, hget, hd], ?_⟩
        rw [frozenOf_concat]

/-- Witness for the quantified parts of the amended C6 at the concrete
heaps. -/
theorem claim_C6_mutable_readonly_witness :
    (∃ H2 r, mutableCloneDeep 10 mutCxHeap 0 = some (.ok (H2, r)) ∧
      frozenOf H2 r = some false) ∧
    (∃ H2 r, readonlyCloneDeep 10 roCxHeap 0 = some (.ok (H2, r)) ∧
      frozenOf H2 r = some true) ∧
    (∃ H2 r, mutableCloneShallow mutCxHeap 0 = .ok (H2, r) ∧
      frozenOf H2 r = some false) := by
  refine ⟨⟨_, _, rfl, ?_⟩, ⟨_, _, rfl, ?_⟩, ?_⟩
  · exact (claim_C6_mutable_readonly.1 10 mutCxHeap 0 _ _ rfl).1
  · exact claim_C6_mutable_readonly.2.1 10 roCxHeap 0 _ _ rfl
  · exact (claim_C6_mutable_readonly.2.2.1 mutCxHeap 0
      ⟨.obj [⟨"a", false, .ref 1⟩], false, none, none⟩ rfl).1

/-!
Deep-equality development for C3: reflexivity of `deepEqN` below the input
heap, and deep equality of the one-level `copyNode` with its source node.
-/

theorem mem_of_get? {H : Heap} {a : Nat} {nd : Node} (hget : H[a]? = some nd) :
    nd ∈ H := by
  obtain ⟨ha, hEq⟩ := List.getElem?_eq_some.mp hget
  exact hEq ▸ List.getElem_mem ha

theorem lt_of_get? {H : Heap} {a : Nat} {nd : Node} (hget : H[a]? = some nd) :
    a < H.length :=
  (List.getElem?_eq_some.mp hget).1

theorem WF_dataBelow {H : Heap} (hWF : WF H) {a : Nat} {nd : Node}
    (hget : H[a]? = some nd) : dataBelow H.length nd.data = true := by
  have h := hWF nd (mem_of_get? hget)
  simp only [nodeWF, Bool.and_eq_true] at h
  exact h.1.1.1

theorem WF_obj_nodup {H : Heap} (hWF : WF H) {a : Nat} {nd : Node}
    {fs : List Field} (hget : H[a]? = some nd) (hd : nd.data = .obj fs) :
    (fs.map (·.key)).Nodup := by
  have h := hWF nd (mem_of_get? hget)
  simp only [nodeWF, Bool.and_eq_true] at h
  have h2 := h.2
  rw [hd] at h2
  simpa using h2

theorem WF_mapN_nodup {H : Heap} (hWF : WF H) {a : Nat} {nd : Node}
    {es : List (Val × Val)} (hget : H[a]? = some nd) (hd : nd.data = .mapN es) :
    (es.map (·.1)).Nodup := by
  have h := hWF nd (mem_of_get? hget)
  simp only [nodeWF, Bool.and_eq_true] at h
  have h2 := h.2
  rw [hd] at h2
  simpa using h2

theorem find?_nodup_key {α β : Type} [DecidableEq β] (k : α → β) :
    ∀ (l : List α), (l.map k).Nodup → ∀ x ∈ l,
      l.find? (fun y => k y = k x) = some x := by
  intro l
  induction l with
  | nil => intro _ x hx; cases hx
  | cons g gs ih =>
    intro hnd x hx
    rw [List.map_cons, List.nodup_cons] at hnd
    rcases List.mem_cons.mp hx with h | h
    · subst h
      exact List.find?_cons_of_pos _ (by simp)
    · have hne : ¬ (k g = k x) := fun he =>
        hnd.1 (he ▸ List.mem_map_of_mem k h)
      rw [List.find?_cons_of_neg _ (by simpa using hne)]
      exact ih hnd.2 x h

theorem zip_self {α : Type} : ∀ (l : List α), l.zip l = l.map fun x => (x, x) := by
  intro l
  induction l with
  | nil => rfl
  | cons a t ih => simp [List.zip_cons_cons, ih]

theorem find?_spreadFields (fs : List Field) (k : String) :
    (spreadFields fs).find? (fun g => g.key = k) =
      (fs.find? (fun f => f.key = k)).map fun f => ⟨f.key, false, f.val⟩ := by
  induction fs with
  | nil => rfl
  | cons f t ih =>
    by_cases h : f.key = k
    · rw [spreadFields, List.map_cons,
        List.find?_cons_of_pos _ (by simpa using h),
        List.find?_cons_of_pos _ (by simpa using h)]
      rfl
    · rw [spreadFields, List.map_cons,
        List.find?_cons_of_neg _ (by simpa using h),
        List.find?_cons_of_neg _ (by simpa using h)]
      exact ih

theorem deepEqN_refl {H : Heap} (hWF : WF H) (ext : Heap) :
    ∀ (n : Nat) (v : Val), valBelow H.length v = true →
      deepEqN (H ++ ext) n v v = true := by
  intro n
  induction n with
  | zero => intro v _; rfl
  | succ n ih =>
    intro v hv
    match v with
    | .prim p => simp [deepEqN, deepEqStep]
    | .func i => simp [deepEqN, deepEqStep]
    | .ref a =>
      have ha : a < H.length := by simpa [valBelow] using hv
      have hget : H[a]? = some H[a] := List.getElem?_eq_getElem ha
      have hgetE : (H ++ ext)[a]? = some H[a] := by
        rw [List.getElem?_append_left ha]
        exact hget
      have hbelow := WF_dataBelow hWF hget
      rw [deepEqN]
      simp only [deepEqStep, hgetE]
      cases hd : (H[a]).data with
      | obj fs =>
        have hnodup := WF_obj_nodup hWF hget hd
        rw [hd] at hbelow
        simp only [dataBelow] at hbelow
        simp only [Bool.and_eq_true, List.all_eq_true]
        constructor
        · intro f hf
          rw [find?_nodup_key Field.key fs hnodup f hf]
          exact ih f.val (List.all_eq_true.mp hbelow f hf)
        · intro g hg
          exact List.any_eq_true.mpr ⟨g, hg, by simp⟩
      | arr cs =>
        rw [hd] at hbelow
        simp only [dataBelow] at hbelow
        simp only [Bool.and_eq_true, List.all_eq_true, decide_eq_true_eq, zip_self]
        refine ⟨trivial, ?_⟩
        intro p hp
        obtain ⟨c, hc, hcp⟩ := List.mem_map.mp hp
        subst hcp
        cases c with
        | none => rfl
        | some w => exact ih w (by simpa using List.all_eq_true.mp hbelow _ hc)
      | mapN es =>
        have hnodup := WF_mapN_nodup hWF hget hd
        rw [hd] at hbelow
        simp only [dataBelow] at hbelow
        simp only [Bool.and_eq_true, List.all_eq_true, decide_eq_true_eq]
        refine ⟨⟨trivial, ?_⟩, ?_⟩
        · intro e he
          rw [find?_nodup_key Prod.fst es hnodup e he]
          have hb := List.all_eq_true.mp hbelow e he
          rw [Bool.and_eq_true] at hb
          exact ih e.2 hb.2
        · intro e he
          exact List.any_eq_true.mpr ⟨e, he, by simp⟩
      | setN xs =>
        rw [hd] at hbelow
        simp only [dataBelow] at hbelow
        simp only [Bool.and_eq_true, List.all_eq_true, decide_eq_true_eq]
        refine ⟨⟨trivial, ?_⟩, ?_⟩
        · intro x hx
          exact List.any_eq_true.mpr ⟨x, hx, ih x (List.all_eq_true.mp hbelow x hx)⟩
        · intro y hy
          exact List.any_eq_true.mpr ⟨y, hy, ih y (List.all_eq_true.mp hbelow y hy)⟩

theorem deepEqN_copyNode {H : Heap} (hWF : WF H) {a : Nat} {nd : Node}
    (hget : H[a]? = some nd) :
    ∀ n, deepEqN (H ++ [copyNode nd]) n (.ref a) (.ref H.length) = true := by
  intro n
  cases n with
  | zero => rfl
  | succ n =>
    have ha : a < H.length := lt_of_get? hget
    have hgetL : (H ++ [copyNode nd])[a]? = some nd := by
      rw [List.getElem?_append_left ha]
      exact hget
    have hgetR : (H ++ [copyNode nd])[H.length]? = some (copyNode nd) :=
      List.getElem?_concat_length _ _
    have hbelow := WF_dataBelow hWF hget
    rw [deepEqN]
    simp only [deepEqStep, hgetL, hgetR]
    cases hd : nd.data with
    | obj fs =>
      have hnodup := WF_obj_nodup hWF hget hd
      rw [hd] at hbelow
      simp only [dataBelow] at hbelow
      simp only [copyNode, hd]
      simp only [Bool.and_eq_true, List.all_eq_true]
      constructor
      · intro f hf
        rw [find?_spreadFields fs f.key, find?_nodup_key Field.key fs hnodup f hf]
        exact deepEqN_refl hWF _ n f.val (List.all_eq_true.mp hbelow f hf)
      · intro g hg
        obtain ⟨f, hf, hfg⟩ := List.mem_map.mp hg
        subst hfg
        exact List.any_eq_true.mpr ⟨f, hf, by simp⟩
    | arr cs =>
      rw [hd] at hbelow
      simp only [dataBelow] at hbelow
      simp only [copyNode, hd]
      simp only [Bool.and_eq_true, List.all_eq_true, decide_eq_true_eq, zip_self]
      refine ⟨trivial, ?_⟩
      intro p hp
      obtain ⟨c, hc, hcp⟩ := List.mem_map.mp hp
      subst hcp
      cases c with
      | none => rfl
      | some w =>
        exact deepEqN_refl hWF _ n w
          (by simpa using List.all_eq_true.mp hbelow _ hc)
    | mapN es =>
      have hnodup := WF_mapN_nodup hWF hget hd
      rw [hd] at hbelow
      simp only [dataBelow] at hbelow
      simp only [copyNode, hd]
      simp only [Bool.and_eq_true, List.all_eq_true, decide_eq_true_eq]
      refine ⟨⟨trivial, ?_⟩, ?_⟩
      · intro e he
        rw [find?_nodup_key Prod.fst es hnodup e he]
        have hb := List.all_eq_true.mp hbelow e he
        rw [Bool.and_eq_true] at hb
        exact deepEqN_refl hWF _ n e.2 hb.2
      · intro e he
        exact List.any_eq_true.mpr ⟨e, he, by simp⟩
    | setN xs =>
      rw [hd] at hbelow
      simp only [dataBelow] at hbelow
      simp only [copyNode, hd]
      simp only [Bool.and_eq_true, List.all_eq_true, decide_eq_true_eq]
      refine ⟨⟨trivial, ?_⟩, ?_⟩
      · intro x hx
        exact List.any_eq_true.mpr
          ⟨x, hx, deepEqN_refl hWF _ n x (List.all_eq_true.mp hbelow x hx)⟩
      · intro y hy
        exact List.any_eq_true.mpr
          ⟨y, hy, deepEqN_refl hWF _ n y (List.all_eq_true.mp hbelow y hy)⟩

/-!
Claim C3: concrete nested heap `x = {a: {b: 1}}` together with the
structural-equality results for `clone`, `clone.shallow` and `clone.deep`.
-/

/-- The input graph `x = {a: {b: 1}}`: address 0 is `x`, address 1 is `x.a`. -/
def nestedHeap : Heap :=
  [⟨.obj [⟨"a", false, .ref 1⟩], false, none, none⟩,
   ⟨.obj [⟨"b", false, .prim (.num 1)⟩], false, none, none⟩]

/-- The root node of `nestedHeap`. -/
def nestedRoot : Node := ⟨.obj [⟨"a", false, .ref 1⟩], false, none, none⟩

/-- The heap after `clone.shallow(x)`: one new one-level copy whose `a`
field still references the input node at address 1. -/
def shallowNestedHeap : Heap :=
  nestedHeap ++ [⟨.obj [⟨"a", false, .ref 1⟩], false, none, none⟩]

/-- The heap after `clone.deep(x)`: a fresh root at address 2 whose `a`
field references a fresh nested copy at address 3. -/
def deepNestedHeap : Heap :=
  nestedHeap ++
  [⟨.obj [⟨"a", false, .ref 3⟩], false, none, none⟩,
   ⟨.obj [⟨"b", false, .prim (.num 1)⟩], false, none, none⟩]

theorem deepEqN_prim (H : Heap) (p : Prim) :
    ∀ n, deepEqN H n (.prim p) (.prim p) = true
  | 0 => rfl
  | n + 1 => by simp [deepEqN, deepEqStep]

theorem deepEqN_nested_inner :
    ∀ n, deepEqN deepNestedHeap n (.ref 1) (.ref 3) = true
  | 0 => rfl
  | n + 1 => by
    have h := deepEqN_prim deepNestedHeap (.num 1) n
    simp [deepEqN, deepEqStep, deepNestedHeap, nestedHeap, List.find?]
    simpa [deepNestedHeap, nestedHeap] using h

theorem deepEqN_nested_root :
    ∀ n, deepEqN deepNestedHeap n (.ref 0) (.ref 2) = true
  | 0 => rfl
  | n + 1 => by
    have h := deepEqN_nested_inner n
    simp [deepEqN, deepEqStep, deepNestedHeap, nestedHeap, List.find?]
    simpa [deepNestedHeap, nestedHeap] using h

/-- Claim C3: for every composite without a custom clone handler (in any
well-formed heap), `clone` returns a freshly allocated one-level copy — a
different identity from its input — that is deep-equal to the input at every
depth; and on the nested example `x = {a: {b: 1}}`, `clone.shallow(x).a`
is the very node `x.a` (shared reference) while `clone.deep(x).a` is a
fresh node distinct from `x.a`, with both outputs deep-equal to `x` (and
the deep nested copy deep-equal to `x.a`). -/
theorem claim_C3 :
    (∀ (H : Heap) (a : Nat) (nd : Node), WF H → H[a]? = some nd →
        nd.custom = none →
        clone H (.ref a) = .ok (H ++ [copyNode nd], .ref H.length) ∧
        (Val.ref H.length) ≠ .ref a ∧
        DeepEq (H ++ [copyNode nd]) (.ref a) (.ref H.length)) ∧
    (cloneShallow nestedHeap (.ref 0) = .ok (shallowNestedHeap, .ref 2) ∧
     objField shallowNestedHeap (.ref 2) "a" = some (.ref 1) ∧
     objField nestedHeap (.ref 0) "a" = some (.ref 1) ∧
     DeepEq shallowNestedHeap (.ref 0) (.ref 2)) ∧
    (cloneDeep 10 nestedHeap (.ref 0) = some (.ok (deepNestedHeap, .ref 2)) ∧
     objField deepNestedHeap (.ref 2) "a" = some (.ref 3) ∧
     (Val.ref 3) ≠ .ref 1 ∧
     DeepEq deepNestedHeap (.ref 0) (.ref 2) ∧
     DeepEq deepNestedHeap (.ref 1) (.ref 3)) := by
  refine ⟨?_, ⟨rfl, rfl, rfl, ?_⟩,
    ⟨rfl, rfl, by decide, deepEqN_nested_root, deepEqN_nested_inner⟩⟩
  · intro H a nd hWF hget hcustom
    have ha : a < H.length := lt_of_get? hget
    refine ⟨?_, ?_, deepEqN_copyNode hWF hget⟩
    · have hic := internalClone_default CloneHint.dflt hget hcustom
      simp [clone, cloneOnce, hic, hget]
    · intro h
      injection h with h2
      omega
  · intro n
    exact @deepEqN_copyNode nestedHeap (by decide) 0 nestedRoot rfl n

/-- Witness for C3 at the concrete nested heap. -/
theorem claim_C3_witness :
    WF nestedHeap ∧ nestedHeap[0]? = some nestedRoot ∧ nestedRoot.custom = none ∧
    (clone nestedHeap (.ref 0) = .ok (nestedHeap ++ [copyNode nestedRoot], .ref 2) ∧
     (Val.ref 2) ≠ .ref 0 ∧
     DeepEq (nestedHeap ++ [copyNode nestedRoot]) (.ref 0) (.ref 2)) :=
  ⟨by decide, rfl, rfl, claim_C3.1 nestedHeap 0 nestedRoot (by decide) rfl rfl⟩

/-!
Claim C9: flatten collapses containers — Maps to entry-pair arrays, Sets to
value arrays, getters to evaluated snapshots — and drops function-valued
members.
-/

/-- Reader: the cell list of an array node. -/
def arrCells (H : Heap) (v : Val) : Option (List (Option Val)) :=
  match v with
  | .ref p =>
    match H[p]? with
    | some nd =>
      match nd.data with
      | .arr cs => some cs
      | _ => none
    | none => none
  | _ => none

/-- `new Map([["k", "v"]])`. -/
def mapHeap : Heap := [⟨.mapN [(.prim (.str "k"), .prim (.str "v"))], false, none, none⟩]

/-- The heap after flattening `mapHeap`: output root at 1 (`[["k","v"]]`),
the `Array.from` entry pair at 2, its flat copy at 3. -/
def mapFlatHeap : Heap :=
  mapHeap ++
  [⟨.arr [some (.ref 3)], false, none, none⟩,
   ⟨.arr [some (.prim (.str "k")), some (.prim (.str "v"))], false, none, none⟩,
   ⟨.arr [some (.prim (.str "k")), some (.prim (.str "v"))], false, none, none⟩]

/-- `new Map([["k1", 1], ["k2", 2]])`. -/
def map2Heap : Heap :=
  [⟨.mapN [(.prim (.str "k1"), .prim (.num 1)), (.prim (.str "k2"), .prim (.num 2))],
    false, none, none⟩]

/-- The heap after flattening `map2Heap`: output root at 1 holding the flat
entry copies at 5 and 4 in entry order (the stack is drained last-pushed
first, so the second entry's copy is allocated first). -/
def map2FlatHeap : Heap :=
  map2Heap ++
  [⟨.arr [some (.ref 5), some (.ref 4)], false, none, none⟩,
   ⟨.arr [some (.prim (.str "k1")), some (.prim (.num 1))], false, none, none⟩,
   ⟨.arr [some (.prim (.str "k2")), some (.prim (.num 2))], false, none, none⟩,
   ⟨.arr [some (.prim (.str "k2")), some (.prim (.num 2))], false, none, none⟩,
   ⟨.arr [some (.prim (.str "k1")), some (.prim (.num 1))], false, none, none⟩]

/-- `new Set([1, 2])`. -/
def setHeap : Heap := [⟨.setN [.prim (.num 1), .prim (.num 2)], false, none, none⟩]

/-- The heap after flattening `setHeap`: output root `[1, 2]` at 1. -/
def setFlatHeap : Heap :=
  setHeap ++ [⟨.arr [some (.prim (.num 1)), some (.prim (.num 2))], false, none, none⟩]

/-- A plain object with a data member, a getter and a method (the
`defaultFlat` doc example). -/
def getterHeap : Heap :=
  [⟨.obj [⟨"field", false, .prim (.num 1)⟩, ⟨"getter", true, .prim (.str "bar")⟩,
    ⟨"method", false, .func 0⟩], false, none, none⟩]

/-- The heap after flattening `getterHeap`: the getter appears by its
evaluated value as a plain data property, the method is gone. -/
def getterFlatHeap : Heap :=
  getterHeap ++
  [⟨.obj [⟨"getter", false, .prim (.str "bar")⟩, ⟨"field", false, .prim (.num 1)⟩],
    false, none, none⟩]

/-- Claim C9: the `defaultFlat` loop drops every function-valued work item
(the `typeof value === 'function'` continue), and on the concrete examples:
flattening `new Map([["k","v"]])` yields the entry-pair array `[["k","v"]]`,
flattening `new Map([["k1",1],["k2",2]])` yields `[["k1",1],["k2",2]]`,
flattening `new Set([1,2])` yields `[1,2]`, and flattening an object with a
getter and a method embeds the getter's evaluated value as a snapshot data
property while the method does not appear in the output. -/
theorem claim_C9 :
    (∀ (s : DState) (i : Nat) (it : Item) (rest : List Item),
        doneD s = false → s.stack = it :: rest → it.value = .func i →
        fstep s = { s with stack := rest }) ∧
    (defaultFlat 10 mapHeap 0 = some (.ok (mapFlatHeap, .ref 1)) ∧
     arrCells mapFlatHeap (.ref 1) = some [some (.ref 3)] ∧
     arrCells mapFlatHeap (.ref 3) =
       some [some (.prim (.str "k")), some (.prim (.str "v"))]) ∧
    (defaultFlat 10 map2Heap 0 = some (.ok (map2FlatHeap, .ref 1)) ∧
     arrCells map2FlatHeap (.ref 1) = some [some (.ref 5), some (.ref 4)] ∧
     arrCells map2FlatHeap (.ref 5) =
       some [some (.prim (.str "k1")), some (.prim (.num 1))] ∧
     arrCells map2FlatHeap (.ref 4) =
       some [some (.prim (.str "k2")), some (.prim (.num 2))]) ∧
    (defaultFlat 10 setHeap 0 = some (.ok (setFlatHeap, .ref 1)) ∧
     arrCells setFlatHeap (.ref 1) =
       some [some (.prim (.num 1)), some (.prim (.num 2))]) ∧
    (defaultFlat 10 getterHeap 0 = some (.ok (getterFlatHeap, .ref 1)) ∧
     objField getterFlatHeap (.ref 1) "getter" = some (.prim (.str "bar")) ∧
     objField getterFlatHeap (.ref 1) "field" = some (.prim (.num 1)) ∧
     objField getterFlatHeap (.ref 1) "method" = none) := by
  refine ⟨?_, ⟨rfl, rfl, rfl⟩, ⟨rfl, rfl, rfl, rfl⟩, ⟨rfl, rfl⟩, ⟨rfl, rfl, rfl, rfl⟩⟩
  intro s i it rest hnd hstack hfunc
  unfold fstep
  rw [if_neg (by simp [hnd]), hstack]
  simp only [hfunc]

/-- The state about to drop the `method` work item of `getterHeap`. -/
def funcItem : Item := ⟨.func 0, .prop "method", .tail, 0⟩

/-- A mid-drain state of `defaultFlat` on `getterHeap` whose top work item
is the function-valued `method`. -/
def funcDropState : DState :=
  { heap := getterHeap ++ [⟨.obj [], false, none, none⟩]
    visited := [(0, .ref 1)]
    stack := [funcItem]
    trace := []
    err := none }

/-- Witness for the quantified part of C9: dropping the function item. -/
theorem claim_C9_witness :
    doneD funcDropState = false ∧ funcDropState.stack = [funcItem] ∧
    funcItem.value = .func 0 ∧
    fstep funcDropState = { funcDropState with stack := [] } :=
  ⟨rfl, rfl, rfl, claim_C9.1 funcDropState 0 funcItem [] rfl rfl rfl⟩

end PrtclSpec
